import Mathlib

/-!
Verification of the deduplication core of the `daily-briefing` repository.

This file gives a shallow embedding, in Lean 4, of the code in
`src/dedup.py` and `src/text_utils.py` (together with the parts of the
Python standard library those modules call: `urllib.parse`,
`difflib.SequenceMatcher`, `datetime.fromisoformat`, and the `json`/file
handling used by the seen-article store), and proves properties of the
embedded functions.

Modelling conventions:
* Python `str` values are modelled as `String` / `List Char`.  Case
  conversion (`str.lower`) and the character classes `\w` / `\s` are
  modelled at the ASCII level with `Char.toLower`, `Char.isAlphanum`
  and an explicit whitespace list; this is exact for ASCII text.
* Percent-encoding (`urllib.parse.quote_plus` / `unquote_plus`) is
  modelled at the byte level through UTF-8, as in CPython.
* `float` division is modelled with exact rational arithmetic (`ℚ`).
* Raising and catching of Python exceptions is modelled with
  `Except PyErr`; the exception classes that the code distinguishes are
  the constructors of `PyErr`.
* Machine-dependent inputs (the current UTC time, the bytes of the
  persisted store) are passed as explicit parameters.
-/

/-- Python exception classes distinguished by the dedup code.  Note that
`UnicodeDecodeError` and `JSONDecodeError` are both subclasses of
`ValueError` in CPython, but the `except` clauses in `dedup.py` name the
concrete classes, so we keep them separate. -/
inductive PyErr where
  | keyError
  | valueError
  | typeError
  | osError
  | jsonDecodeError
  | unicodeDecodeError
  deriving DecidableEq, Repr

/-- Shorthand: the character list of a string literal. -/
def chs (s : String) : List Char := s.data

/-- Python `\s` and `str.isspace`, which agree on every code point:
`\t\n\v\f\r`, the separators `\x1c`–`\x1f`, space, NEL, NBSP, Ogham
space mark, the U+2000–U+200A spaces, line/paragraph separator, narrow
no-break space, medium mathematical space and ideographic space. -/
def pyIsSpace (c : Char) : Bool :=
  let n := c.toNat
  (9 ≤ n && n ≤ 13) || n == 32 || (28 ≤ n && n ≤ 31) ||
  n == 0x85 || n == 0xa0 || n == 0x1680 ||
  (0x2000 ≤ n && n ≤ 0x200a) || n == 0x2028 || n == 0x2029 ||
  n == 0x202f || n == 0x205f || n == 0x3000

/-- Python `\w` (ASCII fragment): alphanumeric characters and underscore. -/
def isWordChar (c : Char) : Bool :=
  c.isAlphanum || (c == '_')

/-- `str.lower` on character lists (ASCII fragment). -/
def lowerL (s : List Char) : List Char := s.map Char.toLower

/-- Drop leading whitespace (the `\s*` of the regexes). -/
def skipWs (s : List Char) : List Char := s.dropWhile (fun c => pyIsSpace c)

/-- Case-insensitive literal match: `matchCI pat s` consumes `pat`
(case-folded) from the front of `s` and returns the remainder.  The
patterns we use are already lowercase, matching `re.IGNORECASE`. -/
def matchCI : List Char → List Char → Option (List Char)
  | [], s => some s
  | _ :: _, [] => none
  | p :: ps, c :: cs => if c.toLower = p then matchCI ps cs else none

theorem matchCI_length {p s r : List Char} (h : matchCI p s = some r) :
    r.length + p.length = s.length := by
  induction p generalizing s with
  | nil => simp [matchCI] at h; simp [h]
  | cons x xs ih =>
    cases s with
    | nil => simp [matchCI] at h
    | cons c cs =>
      simp only [matchCI] at h
      split at h
      · have h2 := ih h
        simp only [List.length_cons]
        omega
      · exact absurd h (by simp)

theorem matchCI_drop {p s r : List Char} (h : matchCI p s = some r) :
    r = s.drop p.length := by
  induction p generalizing s with
  | nil => simp [matchCI] at h; simp [h]
  | cons x xs ih =>
    cases s with
    | nil => simp [matchCI] at h
    | cons c cs =>
      simp only [matchCI] at h
      split at h
      · simpa using ih h
      · exact absurd h (by simp)

/-- The `\s+` between two vocabulary tokens: at least one whitespace
character, consumed greedily. -/
def wsPlus : List Char → Option (List Char)
  | [] => none
  | c :: t => if pyIsSpace c then some (skipWs t) else none

/-- A token sequence joined by `\s+` (used for multi-word vocabulary
entries such as `just\s+in` and `the\s+verge`).  Whitespace after a token
is consumed greedily; since no token starts with whitespace this is
exactly the regex behaviour. -/
def matchTokens : List (List Char) → List Char → Option (List Char)
  | [], s => some s
  | [w], s => matchCI w s
  | w :: ws, s => (matchCI w s).bind (fun r => (wsPlus r).bind (matchTokens ws))

theorem skipWs_drop (s : List Char) : ∃ n, skipWs s = s.drop n := by
  induction s with
  | nil => exact ⟨0, rfl⟩
  | cons c t ih =>
    by_cases h : pyIsSpace c = true
    · obtain ⟨n, hn⟩ := ih
      exact ⟨n + 1, by simpa [skipWs, List.dropWhile, h] using hn⟩
    · exact ⟨0, by simp [skipWs, List.dropWhile, h]⟩

theorem wsPlus_drop {s r : List Char} (h : wsPlus s = some r) :
    ∃ n, r = s.drop n := by
  cases s with
  | nil => simp [wsPlus] at h
  | cons c t =>
    simp only [wsPlus] at h
    split at h
    · obtain ⟨n, hn⟩ := skipWs_drop t
      refine ⟨n + 1, ?_⟩
      simpa [hn] using congrArg id h.symm
    · exact absurd h (by simp)

theorem matchTokens_drop {ws : List (List Char)} {s r : List Char}
    (h : matchTokens ws s = some r) : ∃ n, r = s.drop n := by
  induction ws generalizing s with
  | nil => simp [matchTokens] at h; exact ⟨0, h.symm⟩
  | cons w rest ih =>
    cases rest with
    | nil =>
      simp only [matchTokens] at h
      exact ⟨w.length, matchCI_drop h⟩
    | cons w2 rest2 =>
      simp only [matchTokens, Option.bind_eq_some] at h
      obtain ⟨r1, hm, r2, hws, hrec⟩ := h
      obtain ⟨n1, hn1⟩ := ih hrec
      obtain ⟨n2, hn2⟩ := wsPlus_drop hws
      refine ⟨w.length + n2 + n1, ?_⟩
      have hr1 : r1 = s.drop w.length := matchCI_drop hm
      rw [hn1, hn2, hr1, List.drop_drop, List.drop_drop]
      ring_nf

/-! ### `text_utils.normalize_title` and friends -/

/-- The bracket-noise vocabulary of `_BRACKET_NOISE_RE`
(`updated?|breaking|exclusive|live|developing|video|podcast|opinion`);
the greedy `d?` makes the engine try `updated` before `update`. -/
def bracketWords : List (List Char) :=
  [chs "updated", chs "update", chs "breaking", chs "exclusive", chs "live",
   chs "developing", chs "video", chs "podcast", chs "opinion"]

/-- Try to match `WORD]` (one bracket word followed by the closing
bracket) at the front of `t`, returning the remainder. -/
def matchBrk : List (List Char) → List Char → Option (List Char)
  | [], _ => none
  | w :: ws, t =>
    match matchCI w t with
    | some (']' :: r) => some r
    | _ => matchBrk ws t

theorem matchBrk_lt {ws : List (List Char)} {t r : List Char}
    (h : matchBrk ws t = some r) : r.length < t.length + 1 := by
  induction ws with
  | nil => simp [matchBrk] at h
  | cons w rest ih =>
    simp only [matchBrk] at h
    cases hm : matchCI w t with
    | none => rw [hm] at h; exact ih h
    | some r1 =>
      rw [hm] at h
      cases r1 with
      | nil => exact ih h
      | cons c t2 =>
        by_cases hc : c = ']'
        · subst hc
          simp only at h
          have hl := matchCI_length hm
          cases h
          simp at hl
          omega
        · have : matchBrk rest t = some r := by
            cases c <;> simp_all [matchBrk]
          exact ih this

/-- The scan of `_BRACKET_NOISE_RE.sub("", ·)`, with fuel (the fuel is
always at least the length of the list, which the scan consumes). -/
def bracketSubAux : Nat → List Char → List Char
  | 0, s => s
  | _ + 1, [] => []
  | fuel + 1, c :: t =>
    if c = '[' then
      match matchBrk bracketWords t with
      | some r => bracketSubAux fuel r
      | none => '[' :: bracketSubAux fuel t
    else
      c :: bracketSubAux fuel t

/-- `_BRACKET_NOISE_RE.sub("", ·)`: remove every (leftmost,
non-overlapping) occurrence of `[word]` for a vocabulary word. -/
def bracketSub (s : List Char) : List Char := bracketSubAux s.length s

/-- The noise-prefix vocabulary of `_NOISE_PREFIX_RE`, in the regex's
alternation order. -/
def noiseAlts : List (List (List Char)) :=
  [[chs "breaking"], [chs "update"], [chs "updated"], [chs "exclusive"],
   [chs "opinion"], [chs "analysis"], [chs "report"], [chs "watch"],
   [chs "live"], [chs "developing"], [chs "just", chs "in"], [chs "alert"]]

/-- The separator class `[:|\-]` of the noise-prefix regex. -/
def sepChars1 : List Char := [':', '|', '-']

/-- Try one alternative of `_NOISE_PREFIX_RE` at the start of `s`:
the vocabulary entry, then `\s*`, a separator, and `\s*`. -/
def tryAlt (alt : List (List Char)) (s : List Char) : Option (List Char) :=
  match matchTokens alt s with
  | none => none
  | some r =>
    match skipWs r with
    | [] => none
    | c :: t => if c ∈ sepChars1 then some (skipWs t) else none

/-- Try the alternatives in order (regex alternation is first-match). -/
def tryAlts : List (List (List Char)) → List Char → Option (List Char)
  | [], _ => none
  | alt :: alts, s =>
    match tryAlt alt s with
    | some r => some r
    | none => tryAlts alts s

/-- `_NOISE_PREFIX_RE.sub("", ·)`: the pattern is anchored at `^`, so at
most one prefix is removed. -/
def prefSub (s : List Char) : List Char :=
  match tryAlts noiseAlts s with
  | some r => r
  | none => s

/-- The source-name vocabulary of `_SOURCE_SUFFIX_RE`. -/
def srcNames : List (List (List Char)) :=
  [[chs "bloomberg"], [chs "reuters"], [chs "cnbc"], [chs "yahoo"],
   [chs "the", chs "verge"], [chs "ars", chs "technica"], [chs "techcrunch"],
   [chs "wired"], [chs "bbc"], [chs "cnn"], [chs "nyt"], [chs "wsj"],
   [chs "seeking", chs "alpha"], [chs "marketwatch"], [chs "investing.com"],
   [chs "the", chs "hacker", chs "news"], [chs "bleepingcomputer"]]

/-- The separator class `[-–—|]` of the source-suffix regex. -/
def sepChars2 : List Char := ['-', '–', '—', '|']

/-- Does one of the source names, followed by `\s*$`, match all of `s`? -/
def anyNameEnd : List (List (List Char)) → List Char → Bool
  | [], _ => false
  | name :: rest, s =>
    (match matchTokens name s with
     | some r => skipWs r = []
     | none => false)
    || anyNameEnd rest s

/-- Does `\s*[-–—|]\s*(SOURCE)\s*$` match starting exactly at `s`? -/
def suffMatchAt (s : List Char) : Bool :=
  match skipWs s with
  | [] => false
  | c :: t => (c ∈ sepChars2 : Bool) && anyNameEnd srcNames (skipWs t)

/-- `_SOURCE_SUFFIX_RE.sub("", ·)`: the pattern is anchored at `$`, so the
(leftmost) match, if any, removes a suffix of the string. -/
def suffSub : List Char → List Char
  | [] => []
  | c :: t => if suffMatchAt (c :: t) then [] else c :: suffSub t

/-- `re.sub(r"[^\w\s]", "", ·)`: keep only word characters and whitespace. -/
def stripPunct (s : List Char) : List Char :=
  s.filter (fun c => isWordChar c || pyIsSpace c)

/-- `re.sub(r"\s+", " ", ·)`: each maximal whitespace run becomes one
space.  The flag records whether the previous character was whitespace. -/
def wsCollapse : Bool → List Char → List Char
  | _, [] => []
  | prevWs, c :: t =>
    if pyIsSpace c then
      if prevWs then wsCollapse true t else ' ' :: wsCollapse true t
    else c :: wsCollapse false t

/-- `str.strip()`: drop whitespace from both ends. -/
def pyStrip (s : List Char) : List Char :=
  ((s.dropWhile (fun c => pyIsSpace c)).reverse.dropWhile (fun c => pyIsSpace c)).reverse

/-- `text_utils.normalize_title`, on character lists: bracket noise,
noise prefix and source suffix removal, punctuation stripping, whitespace
collapsing/stripping and lowercasing, in the source's order. -/
def normalizeTitleL (t : List Char) : List Char :=
  lowerL (pyStrip (wsCollapse false (stripPunct (suffSub (prefSub (bracketSub t))))))

/-- `text_utils.normalize_title`. -/
def normalize_title (t : String) : String :=
  String.mk (normalizeTitleL t.data)

theorem dropWhile_len_le (p : Char → Bool) (l : List Char) :
    (l.dropWhile p).length ≤ l.length := by
  induction l with
  | nil => simp
  | cons c t ih =>
    by_cases h : p c = true
    · simp only [List.dropWhile, h, List.length_cons]
      omega
    · simp only [List.dropWhile]
      rw [show p c = false from by simpa using h]

/-- The accumulator loop of `str.split()`: `cur` holds the reversed
current word. -/
def splitWsAux : List Char → List Char → List (List Char)
  | cur, [] => if cur = [] then [] else [cur.reverse]
  | cur, c :: t =>
    if pyIsSpace c then
      if cur = [] then splitWsAux [] t else cur.reverse :: splitWsAux [] t
    else splitWsAux (c :: cur) t

/-- `str.split()` (no separator): split on whitespace runs, no empty
words. -/
def pySplitWs (s : List Char) : List (List Char) := splitWsAux [] s

/-- `text_utils.STOP_WORDS`. -/
def STOP_WORDS : List String :=
  ["a", "an", "the", "and", "or", "but", "in", "on", "at", "to", "for",
   "of", "with", "by", "from", "is", "are", "was", "were", "be", "been",
   "being", "have", "has", "had", "do", "does", "did", "will", "would",
   "could", "should", "may", "might", "shall", "can", "need", "must",
   "it", "its", "this", "that", "these", "those", "i", "you", "he", "she",
   "we", "they", "me", "him", "her", "us", "them", "my", "your", "his",
   "our", "their", "what", "which", "who", "whom", "how", "when", "where",
   "why", "not", "no", "nor", "so", "if", "then", "than", "too", "very",
   "just", "about", "above", "after", "before", "between", "into", "through",
   "during", "each", "few", "more", "most", "other", "some", "such", "only",
   "own", "same", "also", "as", "up", "out", "off", "over", "under", "again",
   "new", "says", "said", "report", "reports", "according", "via", "now",
   "here", "all", "any", "both", "every", "many", "much"]

/-- The accumulator loop of first-occurrence deduplication (`seen` holds
the elements already emitted). -/
def pyDedupAux {α : Type} [DecidableEq α] : List α → List α → List α
  | _, [] => []
  | seen, c :: t =>
    if c ∈ seen then pyDedupAux seen t else c :: pyDedupAux (c :: seen) t

/-- First-occurrence deduplication: a Python `set` is modelled as the
duplicate-free list of its elements (membership, intersection and union
sizes do not depend on the order). -/
def pyDedup {α : Type} [DecidableEq α] (l : List α) : List α := pyDedupAux [] l

/-- `text_utils.extract_keywords`: normalize, split on whitespace, keep
tokens longer than 2 characters that are not stop words; the result is a
set (modelled as a duplicate-free list). -/
def extract_keywords (t : String) : List String :=
  pyDedup (((pySplitWs (normalize_title t).data).map String.mk).filter
      (fun w => w ∉ STOP_WORDS ∧ 2 < w.length))

/-- `text_utils.keyword_similarity`: `(0, 0)` if either keyword set is
empty, otherwise the Jaccard index and the overlap count
(`kw_a & kw_b` and `kw_a | kw_b` on the duplicate-free lists).
Python's float division is modelled exactly in `ℚ`. -/
def keyword_similarity (a b : String) : ℚ × ℕ :=
  let ka := extract_keywords a
  let kb := extract_keywords b
  if ka = [] ∨ kb = [] then (0, 0)
  else
    let overlap := ka.filter (fun w => w ∈ kb)
    let union := ka ++ kb.filter (fun w => w ∉ ka)
    ((overlap.length : ℚ) / (union.length : ℚ), overlap.length)

/-! ### `urllib.parse`: UTF-8 and percent-encoding -/

/-- UTF-8 encoding of one code point (as in CPython's `str.encode`). -/
def utf8EncodeChar (c : Char) : List Nat :=
  let n := c.toNat
  if n < 128 then [n]
  else if n < 2048 then [192 + n / 64, 128 + n % 64]
  else if n < 65536 then [224 + n / 4096, 128 + (n / 64) % 64, 128 + n % 64]
  else [240 + n / 262144, 128 + (n / 4096) % 64, 128 + (n / 64) % 64, 128 + n % 64]

/-- A UTF-8 continuation byte. -/
def isCont (b : Nat) : Bool := 128 ≤ b && b < 192

/-- The U+FFFD replacement character used by `errors="replace"`. -/
def replCh : Char := '�'

/-- UTF-8 decoding with replacement of invalid sequences (CPython's
`bytes.decode("utf-8", "replace")`; on an invalid sequence we emit one
replacement character and resynchronise after the lead byte, a faithful
model on all valid sequences). -/
def utf8Decode : List Nat → List Char
  | [] => []
  | b :: rest =>
    if h1 : b < 128 then Char.ofNat b :: utf8Decode rest
    else if h2 : 194 ≤ b ∧ b ≤ 223 then
      match rest with
      | b1 :: r1 =>
        if isCont b1 then Char.ofNat ((b - 192) * 64 + (b1 - 128)) :: utf8Decode r1
        else replCh :: utf8Decode (b1 :: r1)
      | [] => [replCh]
    else if h3 : 224 ≤ b ∧ b ≤ 239 then
      match rest with
      | b1 :: b2 :: r2 =>
        if isCont b1 && isCont b2 && (b ≠ 224 || 160 ≤ b1) && (b ≠ 237 || b1 ≤ 159) then
          Char.ofNat ((b - 224) * 4096 + (b1 - 128) * 64 + (b2 - 128)) :: utf8Decode r2
        else replCh :: utf8Decode (b1 :: b2 :: r2)
      | [b1] => if isCont b1 then [replCh] else [replCh, replCh]
      | [] => [replCh]
    else if h4 : 240 ≤ b ∧ b ≤ 244 then
      match rest with
      | b1 :: b2 :: b3 :: r3 =>
        if isCont b1 && isCont b2 && isCont b3 && (b ≠ 240 || 144 ≤ b1) && (b ≠ 244 || b1 ≤ 143) then
          Char.ofNat ((b - 240) * 262144 + (b1 - 128) * 4096 + (b2 - 128) * 64 + (b3 - 128)) ::
            utf8Decode r3
        else replCh :: utf8Decode (b1 :: b2 :: b3 :: r3)
      | r => replCh :: utf8Decode r
    else replCh :: utf8Decode rest
termination_by bs => bs.length
decreasing_by all_goals simp_all <;> omega

/-- The characters CPython's `quote` never escapes (`always_safe`; the
`safe` argument is `""` throughout `urlencode`). -/
def safeChar (c : Char) : Bool :=
  c.isAlphanum || c == '_' || c == '.' || c == '-' || c == '~'

def hexDigitsU : List Char := chs "0123456789ABCDEF"

def hexHi (b : Nat) : Char := hexDigitsU.getD (b / 16) 'X'

def hexLo (b : Nat) : Char := hexDigitsU.getD (b % 16) 'X'

/-- `urllib.parse.quote_plus` on one character: safe characters pass
through, a space becomes `+`, anything else becomes the percent-encoded
UTF-8 bytes. -/
def quotePlusChar (c : Char) : List Char :=
  if safeChar c then [c]
  else if c = ' ' then ['+']
  else (utf8EncodeChar c).bind (fun b => ['%', hexHi b, hexLo b])

/-- `urllib.parse.quote_plus` (with `safe=""`, as called by `urlencode`). -/
def quotePlusL (s : List Char) : List Char := s.bind quotePlusChar

/-- Hex digit value, both cases (CPython's `_hextobyte` table). -/
def hexVal (c : Char) : Option Nat :=
  if '0' ≤ c ∧ c ≤ '9' then some (c.toNat - 48)
  else if 'a' ≤ c ∧ c ≤ 'f' then some (c.toNat - 87)
  else if 'A' ≤ c ∧ c ≤ 'F' then some (c.toNat - 55)
  else none

/-- Collect a maximal run of `%XX` escapes, returning the bytes and the
remainder (the run decoded as one chunk, as `unquote_to_bytes` does). -/
def pctRun : List Char → List Nat × List Char
  | [] => ([], [])
  | [c] => ([], [c])
  | [c, d] => ([], [c, d])
  | c :: d :: e :: rest =>
    if c = '%' then
      match hexVal d, hexVal e with
      | some ha, some hb =>
        let p := pctRun rest
        ((16 * ha + hb) :: p.1, p.2)
      | _, _ => ([], c :: d :: e :: rest)
    else ([], c :: d :: e :: rest)

theorem pctRun_nonmatch {s : List Char} (h : (pctRun s).1 = []) : (pctRun s).2 = s := by
  match s with
  | [] => rfl
  | [c] => rfl
  | [c, d] => rfl
  | c :: d :: e :: t =>
    by_cases hc : c = '%'
    · subst hc
      simp only [pctRun] at h ⊢
      cases ha : hexVal d <;> cases hb : hexVal e <;> simp_all
    · simp only [pctRun, if_neg hc]

theorem pctRun_length (s : List Char) :
    (pctRun s).2.length + 3 * (pctRun s).1.length = s.length := by
  match s with
  | [] => rfl
  | [c] => rfl
  | [c, d] => rfl
  | c :: d :: e :: t =>
    by_cases hc : c = '%'
    · subst hc
      have ih := pctRun_length t
      simp only [pctRun, if_pos rfl]
      cases ha : hexVal d <;> cases hb : hexVal e <;> simp_all <;> omega
    · simp [pctRun, if_neg hc]

/-- The scan of `urllib.parse.unquote`, with fuel (always run with fuel
at least the string length, see `unqAux_fuel`). -/
def unqAux : Nat → List Char → List Char
  | 0, s => s
  | _, [] => []
  | fuel + 1, c :: t =>
    if c = '%' then
      match pctRun (c :: t) with
      | ([], _) => c :: unqAux fuel t
      | (bs, r) => utf8Decode bs ++ unqAux fuel r
    else c :: unqAux fuel t

/-- `urllib.parse.unquote` (UTF-8, `errors="replace"`). -/
def unquoteL (s : List Char) : List Char := unqAux s.length s

/-- The `.replace("+", " ")` step of `parse_qsl`/`unquote_plus`. -/
def plusToSpace (c : Char) : Char := if c = '+' then ' ' else c

/-- `unquote_plus` as performed by `parse_qsl`: replace `+` by a space,
then `unquote`. -/
def unquotePlusL (s : List Char) : List Char := unquoteL (s.map plusToSpace)

/-! ### `urllib.parse`: splitting and unsplitting -/

/-- Leading C0-control/space characters stripped by `urlsplit`
(`_WHATWG_C0_CONTROL_OR_SPACE`). -/
def c0OrSpace (c : Char) : Bool := c.toNat ≤ 32

/-- The unsafe bytes `\t`, `\r`, `\n` removed everywhere by `urlsplit`
(`_UNSAFE_URL_BYTES_TO_REMOVE`). -/
def unsafeUrlByte (c : Char) : Bool := (c == '\t') || (c == '\r') || (c == '\n')

/-- The WHATWG cleanup `urlsplit` applies before parsing: `lstrip` of
C0/space, then removal of tab/CR/LF. -/
def cleanUrl (u : List Char) : List Char :=
  (u.dropWhile (fun c => c0OrSpace c)).filter (fun c => !(unsafeUrlByte c))

/-- `scheme_chars` of `urllib.parse`. -/
def schemeChar (c : Char) : Bool :=
  c.isAlpha || c.isDigit || c == '+' || c == '-' || c == '.'

/-- The result of `urlsplit` (fragment kept for completeness). -/
structure PySplitUrl where
  scheme : List Char
  netloc : List Char
  path : List Char
  query : List Char
  fragment : List Char
  deriving DecidableEq, Repr

/-- `urllib.parse.urlsplit` (CPython 3.11): WHATWG cleanup; scheme split
when the text before the first `:` is a nonempty run of scheme
characters starting with an ASCII letter; netloc split after `//` up to
the first `/`, `?` or `#`, raising `ValueError` on unbalanced square
brackets (newer CPython additionally validates the contents of a
balanced bracketed host, not modelled here); then fragment and query
splits.  CPython's `_checknetloc` returns immediately on ASCII netlocs
and otherwise raises when NFKC normalisation alters the netloc or
reveals separators, so this model is exact on bracket-free input whose
netloc is ASCII; non-ASCII netlocs are outside it. -/
def urlsplitE (url0 : List Char) : Except PyErr PySplitUrl :=
  let url1 := cleanUrl url0
  let pre := url1.takeWhile (fun c => c ≠ ':')
  let headAlpha := match url1 with
    | c :: _ => c.isAlpha
    | [] => false
  let schemeRes :=
    if pre.length < url1.length ∧ 0 < pre.length ∧ headAlpha = true ∧ pre.all schemeChar = true
    then (lowerL pre, url1.drop (pre.length + 1))
    else ([], url1)
  let scheme := schemeRes.1
  let u2 := schemeRes.2
  let netlocRes :=
    match u2 with
    | '/' :: '/' :: rest =>
      (rest.takeWhile (fun c => c ≠ '/' ∧ c ≠ '?' ∧ c ≠ '#'),
       rest.dropWhile (fun c => c ≠ '/' ∧ c ≠ '?' ∧ c ≠ '#'))
    | _ => ([], u2)
  let netloc := netlocRes.1
  let u3 := netlocRes.2
  if ('[' ∈ netloc ∧ ']' ∉ netloc) ∨ (']' ∈ netloc ∧ '[' ∉ netloc) then
    .error .valueError
  else
    let fragRes :=
      if '#' ∈ u3 then
        (u3.takeWhile (fun c => c ≠ '#'), (u3.dropWhile (fun c => c ≠ '#')).tail)
      else (u3, [])
    let u4 := fragRes.1
    let queryRes :=
      if '?' ∈ u4 then
        (u4.takeWhile (fun c => c ≠ '?'), (u4.dropWhile (fun c => c ≠ '?')).tail)
      else (u4, [])
    .ok ⟨scheme, netloc, queryRes.1, queryRes.2, fragRes.2⟩

/-- `uses_params` of `urllib.parse`. -/
def usesParams : List (List Char) :=
  [chs "", chs "ftp", chs "hdl", chs "prospero", chs "http", chs "imap",
   chs "https", chs "shttp", chs "rtsp", chs "rtsps", chs "rtspu", chs "sip",
   chs "sips", chs "mms", chs "sftp", chs "tel"]

/-- `_splitparams`: split `;params` off the last path segment.  (This is
only called when `;` occurs in the path; for totality we return the path
unchanged when there is no `;` in the relevant region.) -/
def splitparamsL (path : List Char) : List Char × List Char :=
  if '/' ∈ path then
    let segRev := path.reverse.takeWhile (fun c => c ≠ '/')
    let seg := segRev.reverse
    if ';' ∈ seg then
      let pre := path.take (path.length - seg.length) ++ seg.takeWhile (fun c => c ≠ ';')
      (pre, (seg.dropWhile (fun c => c ≠ ';')).tail)
    else (path, [])
  else if ';' ∈ path then
    (path.takeWhile (fun c => c ≠ ';'), (path.dropWhile (fun c => c ≠ ';')).tail)
  else (path, [])

/-- `urllib.parse.urlparse`: `urlsplit` plus the params split (applied
only for schemes in `uses_params`); the params component is discarded by
`normalize_url`, so only the shortened path is kept. -/
def urlparseE (url0 : List Char) : Except PyErr PySplitUrl :=
  match urlsplitE url0 with
  | .error e => .error e
  | .ok sp =>
    if sp.scheme ∈ usesParams ∧ ';' ∈ sp.path then
      .ok { sp with path := (splitparamsL sp.path).1 }
    else .ok sp

/-- The `hostname` property (via `_hostinfo`, CPython 3.11): the part of
the netloc after the last `@`; inside the brackets if a `[` is present,
otherwise up to the first `:`; lowercased except for a `%zone` suffix.
`None` is modelled as the empty list (`parsed.hostname or ""`). -/
def hostOfL (netloc : List Char) : List Char :=
  let hostinfo := (netloc.reverse.takeWhile (fun c => c ≠ '@')).reverse
  let hp :=
    if '[' ∈ hostinfo then
      ((hostinfo.dropWhile (fun c => c ≠ '[')).tail).takeWhile (fun c => c ≠ ']')
    else hostinfo.takeWhile (fun c => c ≠ ':')
  let pre := hp.takeWhile (fun c => c ≠ '%')
  let zone := hp.dropWhile (fun c => c ≠ '%')
  lowerL pre ++ zone

/-- One `name=value` item of `parse_qsl` with `keep_blank_values=False`:
empty parts, parts without `=` and parts with an empty value are
skipped; names and values go through `.replace("+", " ")` and `unquote`. -/
def qslPair (part : List Char) : Option (List Char × List Char) :=
  if part = [] then none
  else
    match part.dropWhile (fun c => c ≠ '=') with
    | [] => none
    | _ :: v =>
      if v = [] then none
      else some (unquotePlusL (part.takeWhile (fun c => c ≠ '=')),
                 unquotePlusL v)

/-- `urllib.parse.parse_qsl` (defaults: `keep_blank_values=False`,
`strict_parsing=False`, separator `&`; `str.split` is `List.splitOn`). -/
def qslL (q : List Char) : List (List Char × List Char) :=
  if q = [] then [] else (q.splitOn '&').filterMap qslPair

/-- Insert one pair into the accumulating dict of `parse_qs`: append to
the existing key's list, else add a new key at the end (Python dicts
preserve insertion order). -/
def groupIns : List (List Char × List (List Char)) → List Char → List Char →
    List (List Char × List (List Char))
  | [], k, v => [(k, [v])]
  | (k0, vs) :: t, k, v =>
    if k0 = k then (k0, vs ++ [v]) :: t else (k0, vs) :: groupIns t k v

/-- `urllib.parse.parse_qs`: group the `parse_qsl` pairs by key. -/
def groupQs (ps : List (List Char × List Char)) : List (List Char × List (List Char)) :=
  ps.foldl (fun acc kv => groupIns acc kv.1 kv.2) []

/-- `dedup.TRACKING_PARAMS`. -/
def TRACKING_PARAMS : List (List Char) :=
  [chs "utm_source", chs "utm_medium", chs "utm_campaign", chs "utm_term",
   chs "utm_content", chs "ref", chs "source", chs "fbclid", chs "gclid",
   chs "mc_cid", chs "mc_eid"]

/-- The dict comprehension of `normalize_url`: keep the pairs whose
lowercased key is not a tracking parameter (order preserved). -/
def qsFilter (d : List (List Char × List (List Char)))
    : List (List Char × List (List Char)) :=
  d.filter (fun kv => lowerL kv.1 ∉ TRACKING_PARAMS)

/-- `urllib.parse.urlencode` with `doseq=True` over string lists. -/
def urlencodeL (d : List (List Char × List (List Char))) : List Char :=
  List.intercalate ['&']
    (d.bind (fun kv => kv.2.map (fun v => quotePlusL kv.1 ++ '=' :: quotePlusL v)))

/-- `uses_netloc` of `urllib.parse`. -/
def usesNetloc : List (List Char) :=
  [chs "", chs "ftp", chs "http", chs "gopher", chs "nntp", chs "telnet",
   chs "imap", chs "wais", chs "file", chs "mms", chs "https", chs "shttp",
   chs "snews", chs "prospero", chs "rtsp", chs "rtsps", chs "rtspu",
   chs "rsync", chs "svn", chs "svn+ssh", chs "sftp", chs "nfs", chs "git",
   chs "git+ssh", chs "ws", chs "wss"]

/-- `urllib.parse.urlunsplit` (CPython 3.11). -/
def urlunsplitL (scheme netloc url query fragment : List Char) : List Char :=
  let url1 :=
    if netloc ≠ [] ∨ (scheme ≠ [] ∧ scheme ∈ usesNetloc ∧ url.take 2 ≠ chs "//") then
      chs "//" ++ netloc ++ (if url ≠ [] ∧ url.take 1 ≠ chs "/" then '/' :: url else url)
    else url
  let url2 := if scheme ≠ [] then scheme ++ ':' :: url1 else url1
  let url3 := if query ≠ [] then url2 ++ '?' :: query else url2
  if fragment ≠ [] then url3 ++ '#' :: fragment else url3

/-- `urllib.parse.urlunparse`. -/
def urlunparseL (scheme netloc url params query fragment : List Char) : List Char :=
  urlunsplitL scheme netloc (if params ≠ [] then url ++ ';' :: params else url)
    query fragment

/-- `path.rstrip("/")`. -/
def rstripSlash (p : List Char) : List Char :=
  (p.reverse.dropWhile (fun c => c = '/')).reverse

/-- `dedup.normalize_url` on character lists: parse, take the hostname
(`or ""`) with a `www.` prefix removed, drop tracking parameters from
the query, strip trailing slashes from the path, and recompose with an
empty scheme and fragment. -/
def normalizeUrlL (u : List Char) : Except PyErr (List Char) :=
  match urlparseE u with
  | .error e => .error e
  | .ok pr =>
    let host0 := hostOfL pr.netloc
    let host := if host0.take 4 = chs "www." then host0.drop 4 else host0
    let cleanQuery := urlencodeL (qsFilter (groupQs (qslL pr.query)))
    let path := rstripSlash pr.path
    .ok (urlunparseL [] host path [] cleanQuery [])

/-- `dedup.normalize_url`. -/
def normalize_url (u : String) : Except PyErr String :=
  (normalizeUrlL u.data).map String.mk

/-! ### `difflib.SequenceMatcher` (isjunk=None, autojunk=True) -/

/-- Indexing `s[i]` for an in-range Python index. -/
def getC (s : List Char) (i : Nat) : Char := s.getD i ' '

/-- The ascending list of indices of `c` in `b` (the value
`b2j[c]` built by `setdefault`/`append`). -/
def positionsOf (b : List Char) (c : Char) : List Nat :=
  (List.range b.length).filter (fun j => getC b j = c)

/-- The `b2j` dict before junk/popular purging: keys are the distinct
elements of `b` in first-occurrence order. -/
def b2jFull (b : List Char) : List (Char × List Nat) :=
  (pyDedup b).map (fun c => (c, positionsOf b c))

/-- `__chain_b`: with `isjunk=None` the junk set is empty; with
`autojunk` and `len(b) >= 200`, elements occurring more than
`len(b)//100 + 1` times are purged from `b2j`. -/
def b2jOf (b : List Char) : List (Char × List Nat) :=
  if 200 ≤ b.length then
    (b2jFull b).filter (fun kv => kv.2.length ≤ b.length / 100 + 1)
  else b2jFull b

/-- State of the inner loop of `find_longest_match`. -/
structure FlmState where
  j2new : List (Nat × Nat)
  besti : Nat
  bestj : Nat
  bestsize : Nat
  deriving Repr

/-- `j2len.get(j-1, 0)` (Python's `j-1` is `-1` when `j = 0`, which is
never a key). -/
def j2get (j2 : List (Nat × Nat)) (j : Nat) : Nat :=
  if j = 0 then 0 else ((j2.lookup (j - 1)).getD 0)

/-- The inner loop of `find_longest_match` over `b2j.get(a[i], [])`
(ascending indices; `continue` below `blo`, `break` at `bhi`).  Python's
`i-k+1`/`j-k+1` are written `i+1-k`/`j+1-k`; the DP invariant
`k ≤ i+1` and `k ≤ j+1` makes these equal. -/
def innerLoop (blo bhi i : Nat) (j2prev : List (Nat × Nat)) :
    List Nat → FlmState → FlmState
  | [], st => st
  | j :: js, st =>
    if j < blo then innerLoop blo bhi i j2prev js st
    else if bhi ≤ j then st
    else
      let k := j2get j2prev j + 1
      let st1 : FlmState :=
        if st.bestsize < k then
          ⟨st.j2new ++ [(j, k)], i + 1 - k, j + 1 - k, k⟩
        else
          ⟨st.j2new ++ [(j, k)], st.besti, st.bestj, st.bestsize⟩
      innerLoop blo bhi i j2prev js st1

/-- The outer loop of `find_longest_match`: `i` ranges over
`[alo, ahi)` (`cnt` counts the remaining iterations). -/
def flmOuter (a : List Char) (b2j : List (Char × List Nat)) (blo bhi : Nat) :
    Nat → Nat → List (Nat × Nat) → Nat × Nat × Nat → Nat × Nat × Nat
  | _, 0, _, best => best
  | i, cnt + 1, j2prev, best =>
    let js := (b2j.lookup (getC a i)).getD []
    let st := innerLoop blo bhi i j2prev js ⟨[], best.1, best.2.1, best.2.2⟩
    flmOuter a b2j blo bhi (i + 1) cnt st.j2new (st.besti, st.bestj, st.bestsize)

/-- First extension loop (with fuel, run with fuel `bi`, an upper bound
on the iteration count): extend left over non-junk equal elements. -/
def extLeftAux (a b : List Char) (bjunk : List Char) (alo blo : Nat) :
    Nat → Nat × Nat × Nat → Nat × Nat × Nat
  | 0, st => st
  | fuel + 1, (bi, bj, k) =>
    if alo < bi ∧ blo < bj ∧ getC b (bj - 1) ∉ bjunk ∧ getC a (bi - 1) = getC b (bj - 1)
    then extLeftAux a b bjunk alo blo fuel (bi - 1, bj - 1, k + 1)
    else (bi, bj, k)

def extLeft (a b : List Char) (bjunk : List Char) (alo blo : Nat)
    (st : Nat × Nat × Nat) : Nat × Nat × Nat :=
  extLeftAux a b bjunk alo blo st.1 st

/-- Second extension loop (fuel `ahi` bounds the iteration count):
extend right over non-junk equal elements. -/
def extRightAux (a b : List Char) (bjunk : List Char) (ahi bhi : Nat) :
    Nat → Nat × Nat × Nat → Nat × Nat × Nat
  | 0, st => st
  | fuel + 1, (bi, bj, k) =>
    if bi + k < ahi ∧ bj + k < bhi ∧ getC b (bj + k) ∉ bjunk ∧ getC a (bi + k) = getC b (bj + k)
    then extRightAux a b bjunk ahi bhi fuel (bi, bj, k + 1)
    else (bi, bj, k)

def extRight (a b : List Char) (bjunk : List Char) (ahi bhi : Nat)
    (st : Nat × Nat × Nat) : Nat × Nat × Nat :=
  extRightAux a b bjunk ahi bhi ahi st

/-- Third extension loop: extend left over junk. -/
def extLeftJunkAux (a b : List Char) (bjunk : List Char) (alo blo : Nat) :
    Nat → Nat × Nat × Nat → Nat × Nat × Nat
  | 0, st => st
  | fuel + 1, (bi, bj, k) =>
    if alo < bi ∧ blo < bj ∧ getC b (bj - 1) ∈ bjunk ∧ getC a (bi - 1) = getC b (bj - 1)
    then extLeftJunkAux a b bjunk alo blo fuel (bi - 1, bj - 1, k + 1)
    else (bi, bj, k)

def extLeftJunk (a b : List Char) (bjunk : List Char) (alo blo : Nat)
    (st : Nat × Nat × Nat) : Nat × Nat × Nat :=
  extLeftJunkAux a b bjunk alo blo st.1 st

/-- Fourth extension loop: extend right over junk. -/
def extRightJunkAux (a b : List Char) (bjunk : List Char) (ahi bhi : Nat) :
    Nat → Nat × Nat × Nat → Nat × Nat × Nat
  | 0, st => st
  | fuel + 1, (bi, bj, k) =>
    if bi + k < ahi ∧ bj + k < bhi ∧ getC b (bj + k) ∈ bjunk ∧ getC a (bi + k) = getC b (bj + k)
    then extRightJunkAux a b bjunk ahi bhi fuel (bi, bj, k + 1)
    else (bi, bj, k)

def extRightJunk (a b : List Char) (bjunk : List Char) (ahi bhi : Nat)
    (st : Nat × Nat × Nat) : Nat × Nat × Nat :=
  extRightJunkAux a b bjunk ahi bhi ahi st

/-- `find_longest_match` (with `isjunk=None` the junk set is empty, but
the four extension loops are kept as in the source). -/
def findLongestMatch (a b : List Char) (b2j : List (Char × List Nat))
    (bjunk : List Char) (alo ahi blo bhi : Nat) : Nat × Nat × Nat :=
  let best0 := flmOuter a b2j blo bhi alo (ahi - alo) [] (alo, blo, 0)
  extRightJunk a b bjunk ahi bhi
    (extLeftJunk a b bjunk alo blo
      (extRight a b bjunk ahi bhi
        (extLeft a b bjunk alo blo best0)))

/-- Lexicographic order on block triples (Python's tuple `sort`). -/
def tripLe (x y : Nat × Nat × Nat) : Bool :=
  x.1 < y.1 ∨ (x.1 = y.1 ∧ (x.2.1 < y.2.1 ∨ (x.2.1 = y.2.1 ∧ x.2.2 ≤ y.2.2)))

def insSorted (x : Nat × Nat × Nat) : List (Nat × Nat × Nat) → List (Nat × Nat × Nat)
  | [] => [x]
  | y :: t => if tripLe x y then x :: y :: t else y :: insSorted x t

/-- `matching_blocks.sort()`. -/
def sortBlocks (l : List (Nat × Nat × Nat)) : List (Nat × Nat × Nat) :=
  l.foldr insSorted []

/-- The LIFO work-list loop of `get_matching_blocks` (`queue.pop()` pops
from the end; we keep the stack top at the head).  The fuel
`la + lb + 1` dominates the loop's decreasing measure. -/
def mblocksGo (a b : List Char) (b2j : List (Char × List Nat)) (bjunk : List Char) :
    Nat → List (Nat × Nat × Nat × Nat) → List (Nat × Nat × Nat) → List (Nat × Nat × Nat)
  | 0, _, acc => acc
  | _ + 1, [], acc => acc
  | fuel + 1, (alo, ahi, blo, bhi) :: queue, acc =>
    let x := findLongestMatch a b b2j bjunk alo ahi blo bhi
    let i := x.1
    let j := x.2.1
    let k := x.2.2
    if k ≠ 0 then
      let q1 := if i + k < ahi ∧ j + k < bhi then (i + k, ahi, j + k, bhi) :: queue else queue
      let q2 := if alo < i ∧ blo < j then (alo, i, blo, j) :: q1 else q1
      mblocksGo a b b2j bjunk fuel q2 (acc ++ [x])
    else
      mblocksGo a b b2j bjunk fuel queue acc

/-- The adjacent-block merge of `get_matching_blocks`. -/
def mergeAdj : Nat × Nat × Nat → List (Nat × Nat × Nat) → List (Nat × Nat × Nat)
  | (i1, j1, k1), [] => if k1 ≠ 0 then [(i1, j1, k1)] else []
  | (i1, j1, k1), (i2, j2, k2) :: t =>
    if i1 + k1 = i2 ∧ j1 + k1 = j2 then mergeAdj (i1, j1, k1 + k2) t
    else if k1 ≠ 0 then (i1, j1, k1) :: mergeAdj (i2, j2, k2) t
    else mergeAdj (i2, j2, k2) t

/-- `get_matching_blocks`, including the trailing sentinel
`(len(a), len(b), 0)`. -/
def getMatchingBlocks (a b : List Char) : List (Nat × Nat × Nat) :=
  let raw := mblocksGo a b (b2jOf b) [] (a.length + b.length + 1)
    [(0, a.length, 0, b.length)] []
  mergeAdj (0, 0, 0) (sortBlocks raw) ++ [(a.length, b.length, 0)]

/-- `ratio()`: `2*M/T` with the `_calculate_ratio` guard returning `1.0`
when both sequences are empty.  Python's float arithmetic is modelled
exactly in `ℚ`. -/
def ratioQ (a b : List Char) : ℚ :=
  let msum := ((getMatchingBlocks a b).map (fun t => t.2.2)).sum
  if a.length + b.length = 0 then 1
  else 2 * (msum : ℚ) / ((a.length : ℚ) + (b.length : ℚ))

/-- `dedup._titles_similar` with the default threshold `0.9` (the float
literal is modelled as the rational `9/10`; every ratio that arises in
the proofs is `0` or `1`, where the two thresholds agree). -/
def titlesSimilar (a b : String) : Bool :=
  decide ((9 : ℚ) / 10 ≤ ratioQ (lowerL a.data) (lowerL b.data))

/-! ### `datetime`: `fromisoformat`, aware/naive subtraction, `timedelta.days` -/

/-- A parsed `datetime`: wall-clock microseconds since the proleptic
Gregorian epoch (ordinal day 0 = 0001-01-01), and the UTC offset in
microseconds for an aware value (`none` = naive). -/
structure PyDateTime where
  us : Int
  off : Option Int
  deriving DecidableEq, Repr

def usPerDay : Int := 86400000000

/-- The absolute (UTC) instant of an aware datetime. -/
def dtAbs (us offv : Int) : Int := us - offv

/-- Gregorian leap year. -/
def isLeap (y : Nat) : Bool := y % 4 = 0 && (y % 100 ≠ 0 || y % 400 = 0)

/-- Days in a month. -/
def daysInMonth (y m : Nat) : Nat :=
  if m = 2 then (if isLeap y then 29 else 28)
  else if m = 4 ∨ m = 6 ∨ m = 9 ∨ m = 11 then 30
  else 31

/-- Days before the first of month `m` (1-based) in year `y`. -/
def daysBeforeMonth (y m : Nat) : Nat :=
  (List.range (m - 1)).foldl (fun acc i => acc + daysInMonth y (i + 1)) 0

/-- `datetime.toordinal() - 1`: days since 0001-01-01 in the proleptic
Gregorian calendar. -/
def daysFromCivil (y m d : Nat) : Nat :=
  365 * (y - 1) + (y - 1) / 4 - (y - 1) / 100 + (y - 1) / 400 + daysBeforeMonth y m + (d - 1)

/-- The UTF-8 bytes of the string, as CPython's
`PyUnicode_AsUTF8AndSize` produces them. -/
def utf8Bytes (s : List Char) : List Nat := s.flatMap utf8EncodeChar

/-- Byte at index `i`, with the C string's NUL terminator (`0`) past the
end — the accelerator parses the NUL-terminated UTF-8 buffer and reads
at most one byte beyond the logical length. -/
def byteAt (bs : List Nat) (i : Nat) : Nat := (bs.get? i).getD 0

/-- ASCII digit test on a byte (`parse_digits`' `(unsigned)(c - '0') <= 9`). -/
def isDigB (b : Nat) : Bool := 48 ≤ b && b ≤ 57

/-- `parse_digits`: read exactly `n` ASCII digits starting at `pos`,
accumulating left to right; any non-digit (including the terminator)
fails. -/
def digsB (bs : List Nat) : Nat → Nat → Nat → Option Nat
  | _, 0, acc => some acc
  | pos, n + 1, acc =>
    let b := byteAt bs pos
    if isDigB b then digsB bs (pos + 1) n (acc * 10 + (b - 48)) else none

/-- The `do { } while (++tzinfo_pos < p_end)` scan of
`parse_isoformat_time` for the first `+`, `-` or `Z`: the byte at the
current index is examined before the bound is checked, so an empty
string yields index `1`. -/
def tzScan (bs : List Nat) (n : Nat) : Nat → Nat → Nat
  | 0, i => i
  | f + 1, i =>
    let b := byteAt bs i
    if b = 43 ∨ b = 45 ∨ b = 90 then i
    else if i + 1 < n then tzScan bs n f (i + 1) else i + 1

/-- The `HH[:?MM[:?SS]]` component loop of `parse_hh_mm_ss_ff`
(accelerator): each step reads two digits and then the following byte
`c`; the first step sets `has_sep := (c = ':')`.  If the position after
`c` reaches the slice end the loop returns early with the
stuff-follows flag `c ≠ NUL`; a `:` under `has_sep` is consumed; `.` or
`,` hands over to the fraction parser; any other byte without
`has_sep` is left unread for the next component.  Exiting after three
components also hands over to the fraction parser.  Result: parsed
components, fraction start (`none` = early return) and the early
flag. -/
def phLoop (bs : List Nat) (e : Nat) : Nat → Nat → Bool → List Nat →
    Option (List Nat × Option Nat × Bool)
  | 0, pos, _, acc => some (acc.reverse, some pos, false)
  | fuel + 1, pos, hasSep, acc =>
    let b1 := byteAt bs pos
    if ¬ isDigB b1 then none
    else
      let b2 := byteAt bs (pos + 1)
      if ¬ isDigB b2 then none
      else
        let v := (b1 - 48) * 10 + (b2 - 48)
        let c := byteAt bs (pos + 2)
        let hs := if acc.isEmpty then c = 58 else hasSep
        if e ≤ pos + 3 then some ((v :: acc).reverse, none, c ≠ 0)
        else if c = 58 ∧ hs then phLoop bs e fuel (pos + 3) hs (v :: acc)
        else if c = 46 ∨ c = 44 then some ((v :: acc).reverse, some (pos + 3), false)
        else if ¬ hs then phLoop bs e fuel (pos + 2) hs (v :: acc)
        else none

/-- Skip a run of ASCII digit bytes and return the first non-digit byte
(the trailing-digit check after a fraction; stops at the NUL
terminator). -/
def skipDigs (bs : List Nat) : Nat → Nat → Nat
  | 0, pos => byteAt bs pos
  | f + 1, pos =>
    if isDigB (byteAt bs pos) then skipDigs bs f (pos + 1) else byteAt bs pos

/-- `_FRACTION_CORRECTION`: scale a fraction of `k < 6` digits to
microseconds. -/
def fracCorr : Nat → Nat
  | 1 => 100000
  | 2 => 10000
  | 3 => 1000
  | 4 => 100
  | 5 => 10
  | _ => 1

/-- The fraction tail of `parse_hh_mm_ss_ff`: parse `min 6 (e - fpos)`
digits, scale when fewer than six, then skip any further digits; the
first non-digit byte after them sets the stuff-follows flag (`NUL`
clears it).  A zero-digit fraction yields `0` microseconds (`0 *
correction[-1]` in the C). -/
def phFrac (bs : List Nat) (e fpos : Nat) : Option (Nat × Bool) :=
  let remains := e - fpos
  let toParse := min 6 remains
  match digsB bs fpos toParse 0 with
  | none => none
  | some v =>
    let usec := if toParse = 0 then 0
      else if toParse < 6 then v * fracCorr toParse else v
    let b := skipDigs bs (bs.length + 1) (fpos + toParse)
    some (usec, b ≠ 0)

/-- `parse_hh_mm_ss_ff` of the 3.11 `_datetime` accelerator on the byte
slice `[b, e)`: hour, minute, second, microsecond plus the
stuff-follows flag (`1` return).  Non-negative returns only; parse
failures are `none`. -/
def phmsf (bs : List Nat) (e b : Nat) : Option (Bool × Nat × Nat × Nat × Nat) :=
  match phLoop bs e 3 b true [] with
  | none => none
  | some (vals, none, flag) =>
    some (flag, vals.getD 0 0, vals.getD 1 0, vals.getD 2 0, 0)
  | some (vals, some fpos, _) =>
    match phFrac bs e fpos with
    | none => none
    | some (usec, flag) =>
      some (flag, vals.getD 0 0, vals.getD 1 0, vals.getD 2 0, usec)

/-- `parse_isoformat_time`: split at the first `+`/`-`/`Z`, parse the
time part up to it, then the timezone.  With no timezone the
stuff-follows flag is an error; a `Z` must be followed by the NUL
terminator (the flag of the time part is ignored); otherwise the
offset part must parse with a clear flag, and the signed offset is
returned in microseconds (bounds are checked by the `timezone`
constructor, i.e. in `fromisoL`). -/
def parseIsoTimeC (bs : List Nat) : Option ((Nat × Nat × Nat × Nat) × Option Int) :=
  let n := bs.length
  let tzpos := tzScan bs n (n + 1) 0
  match phmsf bs tzpos 0 with
  | none => none
  | some (flag, h, m, s, usec) =>
    if n ≤ tzpos then
      if flag then none else some ((h, m, s, usec), none)
    else if byteAt bs tzpos = 90 then
      if byteAt bs (tzpos + 1) = 0 then some ((h, m, s, usec), some 0) else none
    else
      let sign : Int := if byteAt bs tzpos = 45 then -1 else 1
      match phmsf bs n (tzpos + 1) with
      | none => none
      | some (flag2, th, tm, ts, tu) =>
        if flag2 then none
        else some ((h, m, s, usec),
          some (sign * (((th * 3600 + tm * 60 + ts : Nat) : Int) * 1000000 + (tu : Int))))

/-- `ymd_to_ord(y, 1, 1)` over `Int` with C truncating division (needed
for year `0`, which four digits can produce). -/
def ymdToOrdJan1 (y : Int) : Int :=
  365 * (y - 1) + Int.tdiv (y - 1) 4 - Int.tdiv (y - 1) 100 + Int.tdiv (y - 1) 400 + 1

/-- `iso_week1_monday`: ordinal of the Monday of ISO week 1, with C
truncating `%` (negative for year 0). -/
def isoWeek1Monday (y : Int) : Int :=
  let fd := ymdToOrdJan1 y
  let fwd := Int.tmod (fd + 6) 7
  if 3 < fwd then fd - fwd + 7 else fd - fwd

/-- `iso_to_ymd` followed by the `datetime` constructor's range check:
week `1..52` always, week `53` only when Jan 1 falls on Thursday (or
Wednesday of a leap year); day `1..7`; the resulting ordinal must land
in year 1–9999, i.e. in `[1, 3652059]` (outside it `ord_to_ymd` /
`new_datetime` reject the date).  Returns days since 0001-01-01. -/
def isoToOrd0 (y w d : Nat) : Option Nat :=
  let wOk :=
    if 1 ≤ w ∧ w ≤ 52 then true
    else if w = 53 then
      let fw := Int.tmod (ymdToOrdJan1 (y : Int) + 6) 7
      fw = 3 ∨ (fw = 2 ∧ isLeap y)
    else false
  if ¬ wOk then none
  else if ¬ (1 ≤ d ∧ d ≤ 7) then none
  else
    let ord : Int := isoWeek1Monday (y : Int) + 7 * ((w : Int) - 1) + ((d : Int) - 1)
    if 1 ≤ ord ∧ ord ≤ 3652059 then some (ord - 1).toNat else none

/-- `parse_isoformat_date` of the accelerator: four digit year, dash
separator detection at byte 4, then either the `W` week form (week
digits, then — only when the position after them is below the length
argument — a consistent dash and one day digit) or month/day with a
consistency-checked dash.  `len = none` models the `-1` separator
sentinel, whose unsigned comparison never ends the week form early.
Range validation is the constructor's; the result is days since
0001-01-01. -/
def parseIsoDateC (bs : List Nat) (len : Option Nat) : Option Nat :=
  match digsB bs 0 4 0 with
  | none => none
  | some y =>
    let hasSep := byteAt bs 4 = 45
    let p := if hasSep then 5 else 4
    if byteAt bs p = 87 then
      match digsB bs (p + 1) 2 0 with
      | none => none
      | some w =>
        let after := p + 3
        let atEnd := match len with
          | some l => decide (l ≤ after)
          | none => false
        let day? : Option Nat :=
          if atEnd then some 1
          else
            let q? : Option Nat :=
              if hasSep then
                if byteAt bs after = 45 then some (after + 1) else none
              else some after
            match q? with
            | none => none
            | some q =>
              let b := byteAt bs q
              if isDigB b then some (b - 48) else none
        match day? with
        | none => none
        | some d => isoToOrd0 y w d
    else
      match digsB bs p 2 0 with
      | none => none
      | some mo =>
        let q? : Option Nat :=
          if hasSep then
            if byteAt bs (p + 2) = 45 then some (p + 3) else none
          else some (p + 2)
        match q? with
        | none => none
        | some q =>
          match digsB bs q 2 0 with
          | none => none
          | some d =>
            if 1 ≤ y ∧ 1 ≤ mo ∧ mo ≤ 12 ∧ 1 ≤ d ∧ d ≤ daysInMonth y mo then
              some (daysFromCivil y mo d)
            else none

/-- The digit-run scan of the basic-format `YYYYWww` ambiguity rule:
advance from index 7 while within the length and on ASCII digits. -/
def digRun (bs : List Nat) (n : Nat) : Nat → Nat → Nat
  | 0, idx => idx
  | f + 1, idx =>
    if idx < n ∧ isDigB (byteAt bs idx) then digRun bs n f (idx + 1) else idx

/-- `find_isoformat_datetime_separator` (inlined in
`datetime_fromisoformat`), on the UTF-8 bytes; `none` is the `-1`
error sentinel of the `YYYY-Www` length-9 ambiguity. -/
def isoSepC (bs : List Nat) (n : Nat) : Option Nat :=
  if n = 7 then some 7
  else if byteAt bs 4 = 45 then
    if byteAt bs 5 = 87 then
      if n = 8 then some 8
      else if ¬ (byteAt bs 8 = 45) then some 8
      else if n = 9 then none
      else if n = 10 then some 10
      else if isDigB (byteAt bs 10) then some 8 else some 10
    else some 10
  else if byteAt bs 4 = 87 then
    let idx := digRun bs n (n + 1) 7
    if idx ≤ 8 then some idx else some (7 + idx % 2)
  else some 8

/-- Number of bytes the separator-skip advances for a given lead byte
(UTF-8 length of the date/time separator character). -/
def utf8SkipLen (b : Nat) : Nat :=
  if b < 128 then 1
  else if b / 16 = 14 then 3
  else if b / 16 = 15 then 4
  else 2

/-- `datetime.fromisoformat` as the program executes it: the
`_datetime` C accelerator of CPython 3.11 (which shadows the
pure-Python parser), byte for byte: the length check counts
characters, everything else runs on the NUL-terminated UTF-8 buffer.
A date-only string is naive midnight; otherwise the separator
character is skipped by its UTF-8 length and the time (and optional
`Z`/signed offset) is parsed; the constructor bounds (`h ≤ 23`,
`m, s ≤ 59`, offset strictly within ±24 h) reject out-of-range
values.  Returns `none` for `ValueError`. -/
def fromisoL (s : List Char) : Option PyDateTime :=
  if s.length < 7 then none
  else
    let bs := utf8Bytes s
    let n := bs.length
    let sep := isoSepC bs n
    match parseIsoDateC bs sep with
    | none => none
    | some ord0 =>
      match sep with
      | none => none
      | some sp =>
        if n ≤ sp then some ⟨(ord0 : Int) * usPerDay, none⟩
        else
          let tb := bs.drop (sp + utf8SkipLen (byteAt bs sp))
          match parseIsoTimeC tb with
          | none => none
          | some ((h, m, sec, usec), off) =>
            if ¬ (h ≤ 23 ∧ m ≤ 59 ∧ sec ≤ 59 ∧ usec ≤ 999999) then none
            else
              let timeUs : Int := ((h * 3600 + m * 60 + sec : Nat) : Int) * 1000000 + (usec : Int)
              match off with
              | none => some ⟨(ord0 : Int) * usPerDay + timeUs, none⟩
              | some o =>
                if -86400000000 < o ∧ o < 86400000000 then
                  some ⟨(ord0 : Int) * usPerDay + timeUs, some o⟩
                else none

/-- `datetime.fromisoformat`. -/
def fromisoformat (s : String) : Option PyDateTime := fromisoL s.data

/-! ### `dedup.Deduplicator`: the seen-store, `_load`, `prune`, `filter_new` -/

/-- A seen-store record; the values of the persisted mapping are JSON
objects with optional string fields `title` and `seen_at` (the only keys
the dedup code reads). -/
structure Entry where
  title? : Option String
  seen_at? : Option String
  deriving DecidableEq, Repr

/-- The in-memory store `self._seen`: a Python dict, i.e. an association
list with unique keys in insertion order. -/
abbrev Store := List (String × Entry)

/-- JSON values, for modelling what `json.load` can return. -/
inductive PyJson where
  | null
  | bool (b : Bool)
  | num (n : Int)
  | str (s : String)
  | arr (l : List PyJson)
  | obj (m : List (String × PyJson))

/-- The state of the persisted store resource, by the outcome of
`open`/`json.load` on it: absent; present but unreadable (`OSError`);
bytes that are not valid UTF-8 (`UnicodeDecodeError`); text that is not
valid JSON (`json.JSONDecodeError`); or a parsed JSON value. -/
inductive StoreResource where
  | absent
  | unreadable
  | undecodableBytes
  | malformedJson
  | jsonVal (v : PyJson)

/-- The body of the `try` block in `Deduplicator._load`: open the
resource and parse it as JSON. -/
def openAndParse : StoreResource → Except PyErr PyJson
  | .absent => .error .osError
  | .unreadable => .error .osError
  | .undecodableBytes => .error .unicodeDecodeError
  | .malformedJson => .error .jsonDecodeError
  | .jsonVal v => .ok v

/-- Does `except (json.JSONDecodeError, OSError)` catch this exception?
(`UnicodeDecodeError` is a `ValueError`, not a subclass of either.) -/
def loadCatches (e : PyErr) : Bool :=
  e = .jsonDecodeError ∨ e = .osError

/-- `isinstance(data, dict)`. -/
def isDict : PyJson → Bool
  | .obj _ => true
  | _ => false

/-- `Deduplicator._load`: `{}` when the resource does not exist;
otherwise parse inside `try`, return `{}` on a caught exception or a
non-dict top level, and the mapping itself when the top level is a dict
(the values are not validated). -/
def loadE (r : StoreResource) : Except PyErr (List (String × PyJson)) :=
  match r with
  | .absent => .ok []
  | _ =>
    match openAndParse r with
    | .ok v =>
      match v with
      | .obj m => .ok m
      | _ => .ok []
    | .error e => if loadCatches e then .ok [] else .error e

/-- The body of the `try` block in `Deduplicator.prune` for one entry:
`entry["seen_at"]` (`KeyError` when missing), `fromisoformat`
(`ValueError` when unparsable), `now - seen_at` (`TypeError` when the
parsed value is naive and `now` is aware), then
`(now - seen_at).days > window_days`.  `now` is the absolute UTC instant
of `datetime.now(timezone.utc)` in microseconds. -/
def pruneBody (w : Int) (now : Int) (e : Entry) : Except PyErr Bool := do
  let s ← match e.seen_at? with
    | some s => Except.ok s
    | none => Except.error PyErr.keyError
  let dt ← match fromisoformat s with
    | some dt => Except.ok dt
    | none => Except.error PyErr.valueError
  let offv ← match dt.off with
    | some offv => Except.ok offv
    | none => Except.error PyErr.typeError
  Except.ok (w < Int.fdiv (now - dtAbs dt.us offv) usPerDay)

/-- One entry of `prune`'s loop: the `except (KeyError, ValueError)`
clause marks the entry for removal; any other exception propagates.
Returns `true` when the entry is kept. -/
def pruneKeep (w : Int) (now : Int) (e : Entry) : Except PyErr Bool :=
  match pruneBody w now e with
  | .ok tooOld => .ok (¬ tooOld)
  | .error e => if e = .keyError ∨ e = .valueError then .ok false else .error e

/-- `Deduplicator.prune`: remove every entry marked by `pruneKeep`;
an uncaught exception leaves the store unchanged (the deletions happen
after the loop). -/
def pruneE (w : Int) (now : Int) : Store → Except PyErr Store
  | [] => .ok []
  | (k, e) :: t => do
    let keep ← pruneKeep w now e
    let rest ← pruneE w now t
    .ok (if keep then (k, e) :: rest else rest)

/-- An article record (only the fields the dedup code reads; the real
`parser.Article` also carries `id`, `summary`, `published`,
`source_name` and the category fields, which `filter_new` never
touches). -/
structure Article where
  title : String
  link : String
  deriving DecidableEq, Repr

/-- `[e.get("title", "") for e in self._seen.values()]`. -/
def storeTitles (st : Store) : List String :=
  st.map (fun ke => ke.2.title?.getD "")

/-- Python dict assignment `d[k] = v`: replace in place or append. -/
def storeInsert : Store → String → Entry → Store
  | [], k, e => [(k, e)]
  | (k0, e0) :: t, k, e =>
    if k0 = k then (k0, e) :: t else (k0, e0) :: storeInsert t k e

/-- The loop of `Deduplicator.filter_new`: for each article, normalize
the link (exceptions propagate), skip on a URL hit, skip when any seen
title (including titles accepted earlier in this batch) is similar,
otherwise record the article with the current timestamp and accept it.
`nowIso` is the `datetime.now(timezone.utc).isoformat()` string. -/
def filterNewGo (nowIso : String) :
    List Article → Store → List String → Except PyErr (List Article × Store)
  | [], st, _ => .ok ([], st)
  | a :: arts, st, seenTitles =>
    match normalize_url a.link with
    | .error e => .error e
    | .ok nu =>
      if (st.lookup nu).isSome then filterNewGo nowIso arts st seenTitles
      else if seenTitles.any (fun t => titlesSimilar a.title t) then
        filterNewGo nowIso arts st seenTitles
      else
        match filterNewGo nowIso arts (storeInsert st nu ⟨some a.title, some nowIso⟩)
              (seenTitles ++ [a.title]) with
        | .error e => .error e
        | .ok (res, st') => .ok (a :: res, st')

/-- `Deduplicator.filter_new`, returning the accepted articles and the
updated store. -/
def filter_new (nowIso : String) (st : Store) (arts : List Article) :
    Except PyErr (List Article × Store) :=
  filterNewGo nowIso arts st (storeTitles st)

/-! ### Supporting lemmas: deduplicated lists as sets -/

theorem pyDedupAux_mem {α : Type} [DecidableEq α] (seen l : List α) (x : α) :
    x ∈ pyDedupAux seen l ↔ x ∈ l ∧ x ∉ seen := by
  induction l generalizing seen with
  | nil => simp [pyDedupAux]
  | cons c t ih =>
    by_cases hc : c ∈ seen
    · simp only [pyDedupAux, if_pos hc, ih]
      constructor
      · rintro ⟨hx, hns⟩; exact ⟨List.mem_cons_of_mem _ hx, hns⟩
      · rintro ⟨hx, hns⟩
        rcases List.mem_cons.mp hx with rfl | hx
        · exact absurd hc hns
        · exact ⟨hx, hns⟩
    · simp only [pyDedupAux, if_neg hc, List.mem_cons, ih, List.mem_cons]
      constructor
      · rintro (rfl | ⟨hx, hns⟩)
        · exact ⟨Or.inl rfl, hc⟩
        · exact ⟨Or.inr hx, fun hm => hns (Or.inr hm)⟩
      · rintro ⟨rfl | hx, hns⟩
        · exact Or.inl rfl
        · by_cases hxc : x = c
          · exact Or.inl hxc
          · exact Or.inr ⟨hx, fun hor => by
              rcases hor with h1 | h2
              · exact hxc h1
              · exact hns h2⟩

theorem pyDedupAux_nodup {α : Type} [DecidableEq α] (seen l : List α) :
    (pyDedupAux seen l).Nodup := by
  induction l generalizing seen with
  | nil => simp [pyDedupAux]
  | cons c t ih =>
    by_cases hc : c ∈ seen
    · simpa [pyDedupAux, if_pos hc] using ih seen
    · simp only [pyDedupAux, if_neg hc]
      refine List.Nodup.cons ?_ (ih (c :: seen))
      intro hmem
      exact ((pyDedupAux_mem (c :: seen) t c).mp hmem).2 (List.mem_cons_self c seen)

theorem pyDedup_nodup {α : Type} [DecidableEq α] (l : List α) : (pyDedup l).Nodup :=
  pyDedupAux_nodup [] l

theorem pyDedup_mem {α : Type} [DecidableEq α] (l : List α) (x : α) :
    x ∈ pyDedup l ↔ x ∈ l := by
  simp [pyDedup, pyDedupAux_mem]

/-! ### Claim theorems: the keyword-similarity contract -/

/-- C8: for every pair of titles, if either extracted keyword set is
empty then `keyword_similarity` returns `(0, 0)`; otherwise it returns
the exact Jaccard index `|A ∩ B| / |A ∪ B|` together with the raw
overlap count `|A ∩ B|`, where `A` and `B` are the keyword sets. -/
theorem keyword_similarity_ite (a b : String) :
    keyword_similarity a b =
      if extract_keywords a = [] ∨ extract_keywords b = [] then ((0 : ℚ), (0 : ℕ))
      else
        ((((extract_keywords a).filter (fun w => w ∈ extract_keywords b)).length : ℚ) /
            (((extract_keywords a) ++
              (extract_keywords b).filter (fun w => w ∉ extract_keywords a)).length : ℚ),
          ((extract_keywords a).filter (fun w => w ∈ extract_keywords b)).length) := rfl

theorem keyword_similarity_jaccard (a b : String) :
    (((extract_keywords a).toFinset = ∅ ∨ (extract_keywords b).toFinset = ∅) →
      keyword_similarity a b = (0, 0)) ∧
    ((extract_keywords a).toFinset ≠ ∅ → (extract_keywords b).toFinset ≠ ∅ →
      keyword_similarity a b =
        ((((extract_keywords a).toFinset ∩ (extract_keywords b).toFinset).card : ℚ) /
            (((extract_keywords a).toFinset ∪ (extract_keywords b).toFinset).card : ℚ),
          ((extract_keywords a).toFinset ∩ (extract_keywords b).toFinset).card)) := by
  have hna : (extract_keywords a).Nodup := pyDedup_nodup _
  have hnb : (extract_keywords b).Nodup := pyDedup_nodup _
  constructor
  · intro h
    rw [keyword_similarity_ite, if_pos]
    rcases h with h | h
    · exact Or.inl ((List.toFinset_eq_empty_iff _).mp h)
    · exact Or.inr ((List.toFinset_eq_empty_iff _).mp h)
  · intro ha hb
    have ha' : extract_keywords a ≠ [] :=
      fun h => ha (by simp [h])
    have hb' : extract_keywords b ≠ [] :=
      fun h => hb (by simp [h])
    have hinter : ((extract_keywords a).filter
        (fun w => w ∈ extract_keywords b)).length =
        ((extract_keywords a).toFinset ∩ (extract_keywords b).toFinset).card := by
      rw [← List.toFinset_card_of_nodup (List.Nodup.filter _ hna)]
      refine congrArg Finset.card ?_
      rw [List.toFinset_filter]
      rw [← Finset.filter_mem_eq_inter]
      apply Finset.filter_congr
      intro x hx
      simp [List.mem_toFinset]
    have hunion : ((extract_keywords a) ++
        (extract_keywords b).filter (fun w => w ∉ extract_keywords a)).length =
        ((extract_keywords a).toFinset ∪ (extract_keywords b).toFinset).card := by
      have hnodup : ((extract_keywords a) ++
          (extract_keywords b).filter (fun w => w ∉ extract_keywords a)).Nodup := by
        refine List.Nodup.append hna (List.Nodup.filter _ hnb) ?_
        intro x hxa hxb
        have := List.of_mem_filter hxb
        simp only [decide_not, Bool.not_eq_true', decide_eq_false_iff_not] at this
        exact this hxa
      rw [← List.toFinset_card_of_nodup hnodup]
      refine congrArg Finset.card ?_
      rw [List.toFinset_append, List.toFinset_filter]
      have : Finset.filter (fun x => (decide (x ∉ extract_keywords a)) = true)
          (extract_keywords b).toFinset =
          (extract_keywords b).toFinset \ (extract_keywords a).toFinset := by
        apply Finset.ext
        intro x
        simp [List.mem_toFinset]
      rw [this, Finset.union_sdiff_self_eq_union]
    rw [keyword_similarity_ite, if_neg (by simp [ha', hb']), hinter, hunion]

set_option maxHeartbeats 2000000 in
/-- Witness for C8 at concrete titles with nonempty keyword sets. -/
theorem keyword_similarity_jaccard_witness :
    keyword_similarity "Critical CVE Found in Apache Kafka"
        "Critical CVE Discovered in Apache Kafka" =
      ((((extract_keywords "Critical CVE Found in Apache Kafka").toFinset ∩
            (extract_keywords "Critical CVE Discovered in Apache Kafka").toFinset).card : ℚ) /
          (((extract_keywords "Critical CVE Found in Apache Kafka").toFinset ∪
            (extract_keywords "Critical CVE Discovered in Apache Kafka").toFinset).card : ℚ),
        ((extract_keywords "Critical CVE Found in Apache Kafka").toFinset ∩
            (extract_keywords "Critical CVE Discovered in Apache Kafka").toFinset).card) :=
  (keyword_similarity_jaccard _ _).2
    (by rw [ne_eq, List.toFinset_eq_empty_iff]; decide)
    (by rw [ne_eq, List.toFinset_eq_empty_iff]; decide)

/-! ### Claim theorems: concrete URL normalization values -/

/-- C7: `normalize_url` maps
`https://www.example.com/article/?utm_source=twitter` to exactly
`//example.com/article` (scheme discarded, `www` stripped, trailing
slash removed, tracking query removed, no trailing `?`), and
`https://www.example.com/a/` and `https://example.com/a` normalize
identically. -/
theorem normalize_url_scenarios :
    normalize_url "https://www.example.com/article/?utm_source=twitter" =
      Except.ok "//example.com/article" ∧
    normalize_url "https://www.example.com/a/" = normalize_url "https://example.com/a" :=
  ⟨rfl, rfl⟩

/-! ### Claim theorems: `_load` -/

/-- C2 counterexample: a persisted resource whose bytes are not valid
UTF-8 makes `_load` raise `UnicodeDecodeError` (a `ValueError`, caught
by neither `json.JSONDecodeError` nor `OSError`), contradicting the
claim that `load()` returns the empty mapping and never raises for
every corrupted resource state. -/
theorem load_raises_on_undecodable :
    loadE StoreResource.undecodableBytes = Except.error PyErr.unicodeDecodeError := rfl

/-- C2 amended: `load()` returns the empty mapping without raising when
the resource is absent, unreadable, or holds invalid JSON text or JSON
whose top level is not a mapping; a top-level mapping is returned as-is
(its values are not validated); bytes with invalid text encoding raise
`UnicodeDecodeError`. -/
theorem load_contract :
    loadE StoreResource.absent = Except.ok [] ∧
    loadE StoreResource.unreadable = Except.ok [] ∧
    loadE StoreResource.malformedJson = Except.ok [] ∧
    (∀ v : PyJson, isDict v = false → loadE (StoreResource.jsonVal v) = Except.ok []) ∧
    (∀ m, loadE (StoreResource.jsonVal (PyJson.obj m)) = Except.ok m) ∧
    loadE StoreResource.undecodableBytes = Except.error PyErr.unicodeDecodeError := by
  refine ⟨rfl, rfl, rfl, ?_, fun m => rfl, rfl⟩
  intro v hv
  cases v <;> first | rfl | exact absurd hv (by simp [isDict])

/-- Witness for C2 at a concrete non-mapping JSON value. -/
theorem load_contract_witness :
    loadE (StoreResource.jsonVal (PyJson.num 3)) = Except.ok [] :=
  load_contract.2.2.2.1 (PyJson.num 3) rfl

/-! ### Claim theorems: `prune` -/

/-- C9 counterexample: an entry whose `seen_at` parses to a timestamp
without timezone information makes `prune` raise `TypeError` (aware
minus naive subtraction), so `prune` is not total over all in-memory
store contents. -/
theorem prune_raises_on_naive :
    pruneE 7 0 [("k", ⟨some "Old", some "2024-01-01T00:00:00"⟩)] =
      Except.error PyErr.typeError := rfl

theorem pruneKeep_no_seen {w now : Int} {e : Entry} (h : e.seen_at? = none) :
    pruneKeep w now e = Except.ok false := by
  simp [pruneKeep, pruneBody, Bind.bind, Except.bind, h]

theorem pruneKeep_unparsable {w now : Int} {e : Entry} {s : String}
    (h1 : e.seen_at? = some s) (h2 : fromisoformat s = none) :
    pruneKeep w now e = Except.ok false := by
  simp [pruneKeep, pruneBody, Bind.bind, Except.bind, h1, h2]

theorem pruneKeep_aware {w now : Int} {e : Entry} {s : String} {dt : PyDateTime}
    {offv : Int} (h1 : e.seen_at? = some s) (h2 : fromisoformat s = some dt)
    (h3 : dt.off = some offv) :
    pruneKeep w now e =
      Except.ok (!(decide (w < Int.fdiv (now - dtAbs dt.us offv) usPerDay))) := by
  simp only [pruneKeep, pruneBody, Bind.bind, Except.bind, h1, h2, h3]
  simp only [← decide_not, not_lt, decide_eq_true_eq]

/-- C9 amended: `prune` completes without raising on every store whose
parsable `seen_at` values all carry timezone information; entries with a
missing or unparsable `seen_at` are handled by the
`except (KeyError, ValueError)` clause. -/
theorem prune_total_on_aware (w now : Int) (st : Store)
    (h : ∀ ke ∈ st, ∀ s dt, ke.2.seen_at? = some s → fromisoformat s = some dt →
      dt.off ≠ none) :
    ∃ out, pruneE w now st = Except.ok out := by
  induction st with
  | nil => exact ⟨[], rfl⟩
  | cons ke t ih =>
    obtain ⟨k, e⟩ := ke
    obtain ⟨rest, hrest⟩ := ih (fun ke hke => h ke (List.mem_cons_of_mem _ hke))
    have hkeep : ∃ b, pruneKeep w now e = Except.ok b := by
      cases hs : e.seen_at? with
      | none => exact ⟨false, pruneKeep_no_seen hs⟩
      | some s =>
        cases hdt : fromisoformat s with
        | none => exact ⟨false, pruneKeep_unparsable hs hdt⟩
        | some dt =>
          cases hoff : dt.off with
          | none =>
            exact absurd hoff
              (h (k, e) (List.mem_cons_self _ _) s dt hs hdt)
          | some offv =>
            exact ⟨_, pruneKeep_aware hs hdt hoff⟩
    obtain ⟨b, hb⟩ := hkeep
    refine ⟨if b then (k, e) :: rest else rest, ?_⟩
    simp only [pruneE, Bind.bind, Except.bind, hb, hrest]

/-- Witness for C9 at a concrete store with an aware, a missing and an
unparsable `seen_at`. -/
theorem prune_total_on_aware_witness :
    ∃ out, pruneE 7 0
      [("a", ⟨some "A", some "2024-01-01T00:00:00+00:00"⟩),
       ("b", ⟨some "B", none⟩),
       ("c", ⟨some "C", some "garbage"⟩)] = Except.ok out :=
  prune_total_on_aware 7 0 _ (by
    intro ke hke s dt hs hdt
    simp only [List.mem_cons, List.not_mem_nil, or_false] at hke
    rcases hke with rfl | rfl | rfl
    · simp only at hs
      have hs' : s = "2024-01-01T00:00:00+00:00" := by
        injection hs with h
        exact h.symm
      subst hs'
      rw [show fromisoformat "2024-01-01T00:00:00+00:00" =
        some ⟨63839664000000000, some 0⟩ from rfl] at hdt
      injection hdt with h
      subst h
      simp
    · simp at hs
    · simp only at hs
      have hs' : s = "garbage" := by
        injection hs with h
        exact h.symm
      subst hs'
      rw [show fromisoformat "garbage" = none from rfl] at hdt
      exact absurd hdt (by simp))

theorem char_toNat_ofNat {n : Nat} (h : Nat.isValidChar n) : (Char.ofNat n).toNat = n := by
  simp [Char.ofNat, h, Char.ofNatAux, Char.toNat, UInt32.toNat]

theorem char_eq_iff_toNat (a b : Char) : a = b ↔ a.toNat = b.toNat := by
  constructor
  · rintro rfl; rfl
  · intro h
    have h2 := congrArg Char.ofNat h
    rwa [Char.ofNat_toNat, Char.ofNat_toNat] at h2

theorem char_val_le_iff (c : Char) (n : UInt32) : (n ≤ c.val) ↔ (n.toNat ≤ c.toNat) :=
  Iff.rfl

theorem char_le_val_iff (c : Char) (n : UInt32) : (c.val ≤ n) ↔ (c.toNat ≤ n.toNat) :=
  Iff.rfl

theorem toLower_toNat (c : Char) :
    c.toLower.toNat = if 65 ≤ c.toNat ∧ c.toNat ≤ 90 then c.toNat + 32 else c.toNat := by
  unfold Char.toLower
  by_cases h : c.toNat ≥ 65 ∧ c.toNat ≤ 90
  · rw [if_pos h, if_pos ⟨h.1, h.2⟩]
    exact char_toNat_ofNat (Or.inl (by omega))
  · rw [if_neg h, if_neg (by omega)]

theorem isWordChar_toNat (c : Char) :
    isWordChar c = true ↔
      (65 ≤ c.toNat ∧ c.toNat ≤ 90) ∨ (97 ≤ c.toNat ∧ c.toNat ≤ 122) ∨
      (48 ≤ c.toNat ∧ c.toNat ≤ 57) ∨ c.toNat = 95 := by
  simp only [isWordChar, Char.isAlphanum, Char.isAlpha, Char.isUpper, Char.isLower,
    Char.isDigit, Bool.or_eq_true, beq_iff_eq, decide_eq_true_eq, char_eq_iff_toNat,
    Bool.and_eq_true, ge_iff_le, char_val_le_iff, char_le_val_iff]
  have h1 : ((65 : UInt32)).toNat = 65 := rfl
  have h2 : ((90 : UInt32)).toNat = 90 := rfl
  have h3 : ((97 : UInt32)).toNat = 97 := rfl
  have h4 : ((122 : UInt32)).toNat = 122 := rfl
  have h5 : ((48 : UInt32)).toNat = 48 := rfl
  have h6 : ((57 : UInt32)).toNat = 57 := rfl
  have h7 : ('_').toNat = 95 := rfl
  rw [h1, h2, h3, h4, h5, h6, h7]
  tauto

theorem pyIsSpace_toNat (c : Char) :
    pyIsSpace c = true ↔
      (9 ≤ c.toNat ∧ c.toNat ≤ 13) ∨ c.toNat = 32 ∨
      (28 ≤ c.toNat ∧ c.toNat ≤ 31) ∨
      c.toNat = 0x85 ∨ c.toNat = 0xa0 ∨ c.toNat = 0x1680 ∨
      (0x2000 ≤ c.toNat ∧ c.toNat ≤ 0x200a) ∨ c.toNat = 0x2028 ∨
      c.toNat = 0x2029 ∨ c.toNat = 0x202f ∨ c.toNat = 0x205f ∨
      c.toNat = 0x3000 := by
  simp only [pyIsSpace, Bool.or_eq_true, Bool.and_eq_true, beq_iff_eq,
    decide_eq_true_eq]
  constructor
  · intro h; omega
  · intro h; omega

theorem toLower_idem (c : Char) : c.toLower.toLower = c.toLower := by
  rw [char_eq_iff_toNat, toLower_toNat, toLower_toNat]
  split_ifs <;> omega

theorem isWordChar_toLower (c : Char) : isWordChar c.toLower = isWordChar c := by
  by_cases h : isWordChar c = true
  · rw [h]
    rw [isWordChar_toNat] at h ⊢
    rw [toLower_toNat]
    by_cases hr : 65 ≤ c.toNat ∧ c.toNat ≤ 90
    · rw [if_pos hr]; omega
    · rw [if_neg hr]; omega
  · rw [Bool.not_eq_true] at h
    rw [h]
    rw [Bool.eq_false_iff, ne_eq, isWordChar_toNat] at h ⊢
    rw [toLower_toNat]
    by_cases hr : 65 ≤ c.toNat ∧ c.toNat ≤ 90
    · rw [if_pos hr]; omega
    · rw [if_neg hr]; omega

theorem pyIsSpace_toLower (c : Char) : pyIsSpace c.toLower = pyIsSpace c := by
  by_cases h : pyIsSpace c = true
  · rw [h]
    rw [pyIsSpace_toNat] at h ⊢
    rw [toLower_toNat, if_neg (by omega)]
    exact h
  · rw [Bool.not_eq_true] at h
    rw [h]
    rw [Bool.eq_false_iff, ne_eq, pyIsSpace_toNat] at h ⊢
    rw [toLower_toNat]
    by_cases hr : 65 ≤ c.toNat ∧ c.toNat ≤ 90
    · rw [if_pos hr]; omega
    · rw [if_neg hr]; exact h

theorem not_space_of_word (c : Char) (h : isWordChar c = true) : pyIsSpace c = false := by
  rw [Bool.eq_false_iff, ne_eq, pyIsSpace_toNat]
  rw [isWordChar_toNat] at h
  omega

/-! ### Supporting lemmas: shape of `normalize_title` output -/

theorem dropWhile_head_not (p : Char → Bool) (l : List Char) (c : Char)
    (h : (l.dropWhile p).head? = some c) : p c = false := by
  induction l with
  | nil => simp at h
  | cons d t ih =>
    by_cases hd : p d = true
    · rw [List.dropWhile_cons_of_pos hd] at h
      exact ih h
    · rw [List.dropWhile_cons_of_neg hd] at h
      simp only [List.head?_cons, Option.some.injEq] at h
      subst h
      simpa using hd

theorem dropWhile_eq_self_of_head (p : Char → Bool) (l : List Char)
    (h : ∀ c, l.head? = some c → p c = false) : l.dropWhile p = l := by
  cases l with
  | nil => rfl
  | cons c t => exact List.dropWhile_cons_of_neg (by simp [h c rfl])

theorem pyStrip_head_not (l : List Char) (c : Char)
    (h : (pyStrip l).head? = some c) : pyIsSpace c = false := by
  have hps : pyStrip l =
      List.rdropWhile (fun c => pyIsSpace c) (l.dropWhile (fun c => pyIsSpace c)) := rfl
  rw [hps] at h
  obtain ⟨t, ht⟩ := List.rdropWhile_prefix (fun c => pyIsSpace c)
    (l.dropWhile (fun c => pyIsSpace c))
  set rd := List.rdropWhile (fun c => pyIsSpace c) (l.dropWhile (fun c => pyIsSpace c))
    with hrd
  cases hcase : rd with
  | nil => rw [hcase] at h; simp at h
  | cons x xs =>
    rw [hcase] at h
    simp only [List.head?_cons, Option.some.injEq] at h
    subst h
    apply dropWhile_head_not (fun c => pyIsSpace c) l
    rw [hcase] at ht
    rw [← ht]
    rfl

theorem pyStrip_revhead_not (l : List Char) (c : Char)
    (h : (pyStrip l).reverse.head? = some c) : pyIsSpace c = false := by
  unfold pyStrip at h
  rw [List.reverse_reverse] at h
  exact dropWhile_head_not _ _ _ h

theorem pyStrip_mem {l : List Char} {c : Char} (h : c ∈ pyStrip l) : c ∈ l := by
  unfold pyStrip at h
  rw [List.mem_reverse] at h
  have h1 := (List.dropWhile_suffix (fun c => pyIsSpace c)).subset h
  rw [List.mem_reverse] at h1
  exact (List.dropWhile_suffix (fun c => pyIsSpace c)).subset h1

theorem chainNoWW_pyStrip {l : List Char}
    (h : List.Chain' (fun a b => ¬(pyIsSpace a = true ∧ pyIsSpace b = true)) l) :
    List.Chain' (fun a b => ¬(pyIsSpace a = true ∧ pyIsSpace b = true)) (pyStrip l) := by
  have h1 := List.Chain'.suffix h (List.dropWhile_suffix (fun c => pyIsSpace c))
  have h2 : List.Chain' (fun a b => ¬(pyIsSpace a = true ∧ pyIsSpace b = true))
      ((l.dropWhile (fun c => pyIsSpace c)).reverse) := by
    rw [List.chain'_reverse]
    exact List.Chain'.imp (fun a b hr => fun hc => hr ⟨hc.2, hc.1⟩) h1
  have h3 := List.Chain'.suffix h2 (List.dropWhile_suffix (fun c => pyIsSpace c))
  unfold pyStrip
  rw [List.chain'_reverse]
  exact List.Chain'.imp (fun a b hr => fun hc => hr ⟨hc.2, hc.1⟩) h3

theorem wsCollapse_mem {b : Bool} {s : List Char} {c : Char}
    (h : c ∈ wsCollapse b s) : c = ' ' ∨ (pyIsSpace c = false ∧ c ∈ s) := by
  induction s generalizing b with
  | nil => simp [wsCollapse] at h
  | cons d t ih =>
    by_cases hd : pyIsSpace d = true
    · simp only [wsCollapse, if_pos hd] at h
      by_cases hb : b = true
      · rw [if_pos hb] at h
        rcases ih h with h1 | h2
        · exact Or.inl h1
        · exact Or.inr ⟨h2.1, List.mem_cons_of_mem _ h2.2⟩
      · rw [if_neg hb] at h
        rcases List.mem_cons.mp h with rfl | h
        · exact Or.inl rfl
        · rcases ih h with h1 | h2
          · exact Or.inl h1
          · exact Or.inr ⟨h2.1, List.mem_cons_of_mem _ h2.2⟩
    · simp only [wsCollapse, if_neg hd] at h
      rcases List.mem_cons.mp h with rfl | h
      · exact Or.inr ⟨by simpa using hd, List.mem_cons_self _ _⟩
      · rcases ih h with h1 | h2
        · exact Or.inl h1
        · exact Or.inr ⟨h2.1, List.mem_cons_of_mem _ h2.2⟩

theorem wsCollapse_true_head (s : List Char) (c : Char)
    (h : (wsCollapse true s).head? = some c) : pyIsSpace c = false := by
  induction s with
  | nil => simp [wsCollapse] at h
  | cons d t ih =>
    by_cases hd : pyIsSpace d = true
    · rw [show wsCollapse true (d :: t) = wsCollapse true t from by
        simp [wsCollapse, hd]] at h
      exact ih h
    · rw [show wsCollapse true (d :: t) = d :: wsCollapse false t from by
        simp [wsCollapse, hd]] at h
      simp only [List.head?_cons, Option.some.injEq] at h
      subst h
      simpa using hd

theorem wsCollapse_chain' (s : List Char) (b : Bool) :
    List.Chain' (fun a b => ¬(pyIsSpace a = true ∧ pyIsSpace b = true)) (wsCollapse b s) := by
  induction s generalizing b with
  | nil => simp [wsCollapse]
  | cons d t ih =>
    by_cases hd : pyIsSpace d = true
    · by_cases hb : b = true
      · rw [show wsCollapse b (d :: t) = wsCollapse true t from by
          simp [wsCollapse, hd, hb]]
        exact ih true
      · rw [show wsCollapse b (d :: t) = ' ' :: wsCollapse true t from by
          rw [show b = false from by simpa using hb]
          simp [wsCollapse, hd]]
        rw [List.chain'_cons']
        refine ⟨?_, ih true⟩
        intro y hy
        intro hc
        exact absurd hc.2 (by simp [wsCollapse_true_head t y hy])
    · rw [show wsCollapse b (d :: t) = d :: wsCollapse false t from by
        cases b <;> simp [wsCollapse, hd]]
      rw [List.chain'_cons']
      refine ⟨?_, ih false⟩
      intro y hy
      intro hc
      exact absurd hc.1 (by simpa using hd)

/-! ### Idempotence of `normalize_title` -/

/-- The character class of `normalize_title` output: lowercase-fixed word
characters and single spaces. -/
def goodChar (c : Char) : Prop :=
  (isWordChar c = true ∧ pyIsSpace c = false ∧ c.toLower = c) ∨ c = ' '

instance goodCharDec (c : Char) : Decidable (goodChar c) := by
  unfold goodChar; infer_instance

theorem normalizeTitleL_good (t : List Char) :
    ∀ c ∈ normalizeTitleL t, goodChar c := by
  intro c hc
  unfold normalizeTitleL lowerL at hc
  rw [List.mem_map] at hc
  obtain ⟨d, hd, rfl⟩ := hc
  have hdw := pyStrip_mem hd
  rcases wsCollapse_mem hdw with rfl | ⟨hns, hmem⟩
  · right; decide
  · have hw : isWordChar d = true := by
      have h2 : (isWordChar d || pyIsSpace d) = true := (List.mem_filter.mp hmem).2
      cases hid : isWordChar d with
      | true => rfl
      | false => rw [hid, hns] at h2; simp at h2
    left
    refine ⟨?_, ?_, toLower_idem d⟩
    · rw [isWordChar_toLower]; exact hw
    · rw [pyIsSpace_toLower]; exact hns

theorem head?_map_eq (f : Char → Char) (l : List Char) :
    (l.map f).head? = Option.map f l.head? := by
  cases l <;> rfl

theorem reverse_map_eq (f : Char → Char) (l : List Char) :
    (l.map f).reverse = l.reverse.map f := by
  induction l with
  | nil => rfl
  | cons c t ih =>
    simp only [List.map_cons, List.map_nil, List.reverse_cons, List.map_append, ih]

theorem normalizeTitleL_head_not (t : List Char) (c : Char)
    (h : (normalizeTitleL t).head? = some c) : pyIsSpace c = false := by
  unfold normalizeTitleL lowerL at h
  rw [head?_map_eq] at h
  cases hv : (pyStrip (wsCollapse false (stripPunct (suffSub (prefSub (bracketSub t)))))).head? with
  | none => rw [hv] at h; simp at h
  | some d =>
    rw [hv] at h
    simp only [Option.map_some', Option.some.injEq] at h
    subst h
    rw [pyIsSpace_toLower]
    exact pyStrip_head_not _ _ hv

theorem normalizeTitleL_revhead_not (t : List Char) (c : Char)
    (h : (normalizeTitleL t).reverse.head? = some c) : pyIsSpace c = false := by
  unfold normalizeTitleL lowerL at h
  rw [reverse_map_eq, head?_map_eq] at h
  cases hv : (pyStrip (wsCollapse false (stripPunct (suffSub (prefSub (bracketSub t)))))).reverse.head? with
  | none => rw [hv] at h; simp at h
  | some d =>
    rw [hv] at h
    simp only [Option.map_some', Option.some.injEq] at h
    subst h
    rw [pyIsSpace_toLower]
    exact pyStrip_revhead_not _ _ hv

theorem normalizeTitleL_chain' (t : List Char) :
    List.Chain' (fun a b => ¬(pyIsSpace a = true ∧ pyIsSpace b = true)) (normalizeTitleL t) := by
  unfold normalizeTitleL lowerL
  rw [List.chain'_map]
  refine List.Chain'.imp ?_ (chainNoWW_pyStrip (wsCollapse_chain' _ false))
  intro a b hab hc
  refine hab ⟨?_, ?_⟩
  · rw [← pyIsSpace_toLower a]; exact hc.1
  · rw [← pyIsSpace_toLower b]; exact hc.2

theorem bracketSubAux_id (s : List Char) : ∀ fuel, '[' ∉ s → bracketSubAux fuel s = s := by
  induction s with
  | nil => intro fuel _; cases fuel <;> rfl
  | cons c t ih =>
    intro fuel h
    cases fuel with
    | zero => rfl
    | succ n =>
      have hc : ¬ (c = '[') := by
        intro he; subst he; exact h (List.mem_cons_self _ _)
      rw [show bracketSubAux (n + 1) (c :: t) = c :: bracketSubAux n t from by
        simp [bracketSubAux, hc]]
      rw [ih n (fun hm => h (List.mem_cons_of_mem _ hm))]

theorem bracketSub_id (s : List Char) (h : '[' ∉ s) : bracketSub s = s :=
  bracketSubAux_id s s.length h

theorem tryAlt_none (alt : List (List Char)) (s : List Char)
    (h : ∀ c ∈ s, c ∉ sepChars1) : tryAlt alt s = none := by
  cases hm : matchTokens alt s with
  | none => simp [tryAlt, hm]
  | some r =>
    cases hsw : skipWs r with
    | nil => simp [tryAlt, hm, hsw]
    | cons c t =>
      have hcr : c ∈ skipWs r := by rw [hsw]; exact List.mem_cons_self _ _
      have hc1 : c ∈ r := (List.dropWhile_suffix _).subset hcr
      obtain ⟨n, hn⟩ := matchTokens_drop hm
      have hcs : c ∈ s := by
        rw [hn] at hc1
        exact (List.drop_suffix n s).subset hc1
      simp [tryAlt, hm, hsw, h c hcs]

theorem tryAlts_none (alts : List (List (List Char))) (s : List Char)
    (h : ∀ c ∈ s, c ∉ sepChars1) : tryAlts alts s = none := by
  induction alts with
  | nil => rfl
  | cons alt rest ih => simp [tryAlts, tryAlt_none alt s h, ih]

theorem prefSub_id (s : List Char) (h : ∀ c ∈ s, c ∉ sepChars1) : prefSub s = s := by
  simp [prefSub, tryAlts_none noiseAlts s h]

theorem suffMatchAt_false (s : List Char) (h : ∀ c ∈ s, c ∉ sepChars2) :
    suffMatchAt s = false := by
  cases hsw : skipWs s with
  | nil => simp [suffMatchAt, hsw]
  | cons c t =>
    have hcr : c ∈ skipWs s := by rw [hsw]; exact List.mem_cons_self _ _
    have hcs : c ∈ s := (List.dropWhile_suffix _).subset hcr
    simp [suffMatchAt, hsw, h c hcs]

theorem suffSub_id (s : List Char) (h : ∀ c ∈ s, c ∉ sepChars2) : suffSub s = s := by
  induction s with
  | nil => rfl
  | cons c t ih =>
    have ht := ih (fun d hd => h d (List.mem_cons_of_mem _ hd))
    simp [suffSub, suffMatchAt_false _ h, ht]

theorem stripPunct_id (s : List Char)
    (h : ∀ c ∈ s, (isWordChar c || pyIsSpace c) = true) : stripPunct s = s := by
  unfold stripPunct
  exact List.filter_eq_self.mpr h

theorem wsCollapse_id (s : List Char) : ∀ b : Bool,
    (∀ c ∈ s, pyIsSpace c = true → c = ' ') →
    List.Chain' (fun a b => ¬(pyIsSpace a = true ∧ pyIsSpace b = true)) s →
    (b = true → ∀ c, s.head? = some c → pyIsSpace c = false) →
    wsCollapse b s = s := by
  induction s with
  | nil => intro b _ _ _; rfl
  | cons c t ih =>
    intro b hsp hch hb
    by_cases hc : pyIsSpace c = true
    · have hb' : b = false := by
        cases b with
        | false => rfl
        | true => exact absurd hc (by simp [hb rfl c rfl])
      subst hb'
      have hceq : c = ' ' := hsp c (List.mem_cons_self _ _) hc
      rw [show wsCollapse false (c :: t) = ' ' :: wsCollapse true t from by
        simp [wsCollapse, hc]]
      rw [hceq]
      congr 1
      apply ih true (fun d hd => hsp d (List.mem_cons_of_mem _ hd)) hch.tail
      intro _ d hd
      have h2 := (List.chain'_cons'.mp hch).1 d (by simp [Option.mem_def, hd])
      by_contra hcon
      exact h2 ⟨hc, by simpa using hcon⟩
    · rw [show wsCollapse b (c :: t) = c :: wsCollapse false t from by
        cases b <;> simp [wsCollapse, hc]]
      congr 1
      exact ih false (fun d hd => hsp d (List.mem_cons_of_mem _ hd)) hch.tail
        (fun hfalse => absurd hfalse (by simp))

theorem pyStrip_id (s : List Char)
    (h1 : ∀ c, s.head? = some c → pyIsSpace c = false)
    (h2 : ∀ c, s.reverse.head? = some c → pyIsSpace c = false) :
    pyStrip s = s := by
  unfold pyStrip
  rw [dropWhile_eq_self_of_head _ _ h1, dropWhile_eq_self_of_head _ _ h2,
    List.reverse_reverse]

theorem lowerL_id (s : List Char) (h : ∀ c ∈ s, c.toLower = c) : lowerL s = s := by
  induction s with
  | nil => rfl
  | cons c t ih =>
    have ht := ih (fun d hd => h d (List.mem_cons_of_mem _ hd))
    simp only [lowerL, List.map_cons] at ht ⊢
    rw [h c (List.mem_cons_self _ _), ht]

theorem normalizeTitleL_idem (s : List Char) :
    normalizeTitleL (normalizeTitleL s) = normalizeTitleL s := by
  have hgood := normalizeTitleL_good s
  have hnb : '[' ∉ normalizeTitleL s := by
    intro hm
    have hg := hgood _ hm
    exact absurd hg (by decide)
  have hsep1 : ∀ c ∈ normalizeTitleL s, c ∉ sepChars1 := by
    intro c hc hm
    have hg := hgood c hc
    have hng : ¬ goodChar c := by
      rcases (by simpa [sepChars1] using hm : c = ':' ∨ c = '|' ∨ c = '-') with rfl | rfl | rfl <;>
        decide
    exact hng hg
  have hsep2 : ∀ c ∈ normalizeTitleL s, c ∉ sepChars2 := by
    intro c hc hm
    have hg := hgood c hc
    have hng : ¬ goodChar c := by
      rcases (by simpa [sepChars2] using hm :
          c = '-' ∨ c = '–' ∨ c = '—' ∨ c = '|') with rfl | rfl | rfl | rfl <;>
        decide
    exact hng hg
  have h1 := bracketSub_id _ hnb
  have h2 := prefSub_id _ hsep1
  have h3 := suffSub_id _ hsep2
  have h4 : stripPunct (normalizeTitleL s) = normalizeTitleL s := by
    apply stripPunct_id
    intro c hc
    rcases hgood c hc with ⟨hw, _, _⟩ | rfl
    · simp [hw]
    · decide
  have h5 : wsCollapse false (normalizeTitleL s) = normalizeTitleL s := by
    apply wsCollapse_id _ false ?_ (normalizeTitleL_chain' s)
      (fun hfalse => absurd hfalse (by simp))
    intro c hc hsp
    rcases hgood c hc with ⟨hw, _, _⟩ | rfl
    · exact absurd hsp (by simp [not_space_of_word c hw])
    · rfl
  have h6 : pyStrip (normalizeTitleL s) = normalizeTitleL s :=
    pyStrip_id _ (normalizeTitleL_head_not s) (normalizeTitleL_revhead_not s)
  have h7 : lowerL (normalizeTitleL s) = normalizeTitleL s := by
    apply lowerL_id
    intro c hc
    rcases hgood c hc with ⟨_, _, hl⟩ | rfl
    · exact hl
    · decide
  show lowerL (pyStrip (wsCollapse false (stripPunct (suffSub (prefSub
    (bracketSub (normalizeTitleL s))))))) = normalizeTitleL s
  rw [h1, h2, h3, h4, h5, h6, h7]

/-- Within this embedding (per-character ASCII `str.lower` and ASCII
`\w`), `normalize_title` is idempotent.  This does not transfer to the
full Unicode `normalize_title`: `str.lower` can expand one character to
two (`'İ'` → `'i'` + combining dot above) whose combining mark the
second pass's `[^\w\s]` strip deletes, so real idempotence fails on
such inputs and the question is left unsettled here. -/
theorem normalize_title_idem (t : String) :
    normalize_title (normalize_title t) = normalize_title t := by
  show String.mk (normalizeTitleL (normalizeTitleL t.data)) = String.mk (normalizeTitleL t.data)
  rw [normalizeTitleL_idem]

/-! ### `filter_new`: error behaviour -/

/-- The scheme split of `urlsplit`, as a standalone function (definitionally
the `schemeRes` of `urlsplitE`). -/
def usSchemeSplit (url1 : List Char) : List Char × List Char :=
  let pre := url1.takeWhile (fun c => c ≠ ':')
  let headAlpha := match url1 with
    | c :: _ => c.isAlpha
    | [] => false
  if pre.length < url1.length ∧ 0 < pre.length ∧ headAlpha = true ∧ pre.all schemeChar = true
  then (lowerL pre, url1.drop (pre.length + 1))
  else ([], url1)

/-- The netloc split of `urlsplit` (definitionally the `netlocRes` of
`urlsplitE`). -/
def usNetlocSplit (u2 : List Char) : List Char × List Char :=
  match u2 with
  | '/' :: '/' :: rest =>
    (rest.takeWhile (fun c => c ≠ '/' ∧ c ≠ '?' ∧ c ≠ '#'),
     rest.dropWhile (fun c => c ≠ '/' ∧ c ≠ '?' ∧ c ≠ '#'))
  | _ => ([], u2)

/-- The netloc `urlsplit` computes for an input URL. -/
def usNetloc (u : List Char) : List Char :=
  (usNetlocSplit (usSchemeSplit (cleanUrl u)).2).1

/-- The split `urlsplit` returns when the bracket check passes. -/
def usOkSplit (u : List Char) : PySplitUrl :=
  let scheme := (usSchemeSplit (cleanUrl u)).1
  let netloc := usNetloc u
  let u3 := (usNetlocSplit (usSchemeSplit (cleanUrl u)).2).2
  let fragRes :=
    if '#' ∈ u3 then
      (u3.takeWhile (fun c => c ≠ '#'), (u3.dropWhile (fun c => c ≠ '#')).tail)
    else (u3, [])
  let u4 := fragRes.1
  let queryRes :=
    if '?' ∈ u4 then
      (u4.takeWhile (fun c => c ≠ '?'), (u4.dropWhile (fun c => c ≠ '?')).tail)
    else (u4, [])
  ⟨scheme, netloc, queryRes.1, queryRes.2, fragRes.2⟩

theorem urlsplitE_check (u : List Char) :
    urlsplitE u =
      if ('[' ∈ usNetloc u ∧ ']' ∉ usNetloc u) ∨ (']' ∈ usNetloc u ∧ '[' ∉ usNetloc u)
      then Except.error PyErr.valueError
      else Except.ok (usOkSplit u) := rfl

theorem mem_of_takeWhile {p : Char → Bool} {l : List Char} {c : Char}
    (h : c ∈ l.takeWhile p) : c ∈ l := by
  induction l with
  | nil => simpa using h
  | cons a t ih =>
    by_cases hp : p a = true
    · rw [List.takeWhile_cons_of_pos hp] at h
      rcases List.mem_cons.mp h with rfl | h
      · exact List.mem_cons_self _ _
      · exact List.mem_cons_of_mem _ (ih h)
    · rw [List.takeWhile_cons_of_neg hp] at h
      simp at h

theorem cleanUrl_sub {u : List Char} {c : Char} (h : c ∈ cleanUrl u) : c ∈ u := by
  unfold cleanUrl at h
  have h1 := List.mem_of_mem_filter h
  exact (List.dropWhile_suffix _).subset h1

theorem usSchemeSplit_snd_sub (v : List Char) : ∀ c ∈ (usSchemeSplit v).2, c ∈ v := by
  intro c hc
  simp only [usSchemeSplit] at hc
  split at hc
  · exact List.mem_of_mem_drop hc
  · exact hc

theorem usNetlocSplit_fst_sub (v : List Char) : ∀ c ∈ (usNetlocSplit v).1, c ∈ v := by
  intro c hc
  unfold usNetlocSplit at hc
  split at hc
  · exact List.mem_cons_of_mem _ (List.mem_cons_of_mem _ (mem_of_takeWhile hc))
  · simp at hc

theorem usNetloc_sub (u : List Char) : ∀ c ∈ usNetloc u, c ∈ u := by
  intro c hc
  exact cleanUrl_sub (usSchemeSplit_snd_sub _ c (usNetlocSplit_fst_sub _ c hc))

theorem urlsplitE_ok_of_no_brackets (u : List Char) (h1 : '[' ∉ u) (h2 : ']' ∉ u) :
    urlsplitE u = Except.ok (usOkSplit u) := by
  rw [urlsplitE_check, if_neg]
  intro hcond
  rcases hcond with ⟨hb, _⟩ | ⟨hb, _⟩
  · exact h1 (usNetloc_sub u _ hb)
  · exact h2 (usNetloc_sub u _ hb)

theorem urlparseE_eval {u : List Char} {sp : PySplitUrl} (h : urlsplitE u = Except.ok sp) :
    urlparseE u =
      if sp.scheme ∈ usesParams ∧ ';' ∈ sp.path
      then Except.ok { sp with path := (splitparamsL sp.path).1 }
      else Except.ok sp := by
  unfold urlparseE
  rw [h]

theorem normalizeUrlL_eval {u : List Char} {sp : PySplitUrl} (h : urlparseE u = Except.ok sp) :
    normalizeUrlL u = Except.ok (urlunparseL []
      (if (hostOfL sp.netloc).take 4 = chs "www." then (hostOfL sp.netloc).drop 4
       else hostOfL sp.netloc)
      (rstripSlash sp.path) []
      (urlencodeL (qsFilter (groupQs (qslL sp.query)))) []) := by
  unfold normalizeUrlL
  rw [h]

theorem normalizeUrlL_ok_of_no_brackets (u : List Char) (h1 : '[' ∉ u) (h2 : ']' ∉ u) :
    ∃ r, normalizeUrlL u = Except.ok r := by
  have hsp := urlsplitE_ok_of_no_brackets u h1 h2
  by_cases hc : (usOkSplit u).scheme ∈ usesParams ∧ ';' ∈ (usOkSplit u).path
  · exact ⟨_, normalizeUrlL_eval (by rw [urlparseE_eval hsp, if_pos hc])⟩
  · exact ⟨_, normalizeUrlL_eval (by rw [urlparseE_eval hsp, if_neg hc])⟩

theorem filterNewGo_ok (nowIso : String) (arts : List Article) :
    ∀ st : Store, ∀ seenTitles : List String,
    (∀ a ∈ arts, '[' ∉ a.link.data ∧ ']' ∉ a.link.data) →
    ∃ res, filterNewGo nowIso arts st seenTitles = Except.ok res := by
  induction arts with
  | nil => intro st se _; exact ⟨_, rfl⟩
  | cons a arts ih =>
    intro st se h
    have ha := h a (List.mem_cons_self _ _)
    have h' : ∀ x ∈ arts, '[' ∉ x.link.data ∧ ']' ∉ x.link.data :=
      fun x hx => h x (List.mem_cons_of_mem _ hx)
    obtain ⟨r, hr⟩ := normalizeUrlL_ok_of_no_brackets a.link.data ha.1 ha.2
    have hnu : normalize_url a.link = Except.ok (String.mk r) := by
      unfold normalize_url
      rw [hr]
      rfl
    simp only [filterNewGo, hnu]
    by_cases h1 : (st.lookup (String.mk r)).isSome = true
    · rw [if_pos h1]; exact ih st se h'
    · rw [if_neg h1]
      by_cases h2 : se.any (fun t => titlesSimilar a.title t) = true
      · rw [if_pos h2]; exact ih st se h'
      · rw [if_neg h2]
        obtain ⟨res, hres⟩ := ih (storeInsert st (String.mk r) ⟨some a.title, some nowIso⟩)
          (se ++ [a.title]) h'
        rcases res with ⟨resa, resst⟩
        rw [hres]
        exact ⟨_, rfl⟩

/-- C3 counterexample: an article whose link is the malformed URL
`"http://["` makes `filter_new` raise `ValueError` (from `urlparse`'s
bracket check), so `filter_new` is not total on malformed links. -/
theorem filter_new_raises_on_bracket_link :
    filter_new "2024-01-01T00:00:00+00:00" [] [⟨"t", "http://["⟩] =
      Except.error PyErr.valueError := rfl

/-- C3 (amended): `filter_new` completes without raising on every batch
whose links are ASCII and contain no square brackets (in particular on
empty links and arbitrary — including empty — titles); a link with an
unbalanced bracket in its netloc raises `ValueError` out of `urlparse`,
as can a non-ASCII netloc via `urlsplit`'s NFKC check. -/
theorem filter_new_total_no_brackets (nowIso : String) (st : Store) (arts : List Article)
    (h : ∀ a ∈ arts, (∀ c ∈ a.link.data, c.toNat < 128) ∧
      '[' ∉ a.link.data ∧ ']' ∉ a.link.data) :
    ∃ res, filter_new nowIso st arts = Except.ok res :=
  filterNewGo_ok nowIso arts st (storeTitles st) (fun a ha => (h a ha).2)

theorem filter_new_total_no_brackets_witness :
    (∀ a ∈ [(⟨"Some title", ""⟩ : Article), ⟨"", "https://example.com/a?x=1"⟩],
      (∀ c ∈ a.link.data, c.toNat < 128) ∧
      '[' ∉ a.link.data ∧ ']' ∉ a.link.data) ∧
    ∃ res, filter_new "2024-01-01T00:00:00+00:00" []
      [(⟨"Some title", ""⟩ : Article), ⟨"", "https://example.com/a?x=1"⟩] = Except.ok res :=
  ⟨by decide, filter_new_total_no_brackets _ _ _ (by decide)⟩

/-! ### `SequenceMatcher.ratio` is `1` on identical sequences -/

theorem lookup_cons_eq (t : List (Nat × Nat)) (k0 v0 k : Nat) :
    List.lookup k ((k0, v0) :: t) = if k = k0 then some v0 else List.lookup k t := by
  rw [List.lookup_cons]
  by_cases h : k = k0
  · rw [if_pos h, show (k == k0) = true from beq_iff_eq.mpr h]
  · rw [if_neg h, show (k == k0) = false from beq_eq_false_iff_ne.mpr h]

theorem lookup_mem {l : List (Char × List Nat)} {k : Char} {v : List Nat}
    (h : l.lookup k = some v) : (k, v) ∈ l := by
  induction l with
  | nil => simp [List.lookup] at h
  | cons p t ih =>
    rcases p with ⟨k0, v0⟩
    rw [List.lookup_cons] at h
    cases hk : (k == k0) with
    | true =>
      rw [hk] at h
      simp only [Option.some.injEq] at h
      subst h
      have : k = k0 := beq_iff_eq.mp hk
      subst this
      exact List.mem_cons_self _ _
    | false =>
      rw [hk] at h
      exact List.mem_cons_of_mem _ (ih h)

theorem b2jFull_entry {s : List Char} {k : Char} {v : List Nat}
    (h : (k, v) ∈ b2jFull s) : v = positionsOf s k := by
  unfold b2jFull at h
  rw [List.mem_map] at h
  obtain ⟨c, _, hc⟩ := h
  simp only [Prod.mk.injEq] at hc
  obtain ⟨h1, h2⟩ := hc
  subst h1
  exact h2.symm

theorem b2jOf_entry {s : List Char} {k : Char} {v : List Nat}
    (h : (k, v) ∈ b2jOf s) : v = positionsOf s k := by
  unfold b2jOf at h
  split at h
  · exact b2jFull_entry (List.mem_of_mem_filter h)
  · exact b2jFull_entry h

theorem mem_positionsOf {s : List Char} {c : Char} {j : Nat} :
    j ∈ positionsOf s c ↔ j < s.length ∧ getC s j = c := by
  unfold positionsOf
  rw [List.mem_filter, List.mem_range]
  simp

theorem range_split (n i : Nat) (h : i < n) :
    List.range n = List.range' 0 i ++ i :: List.range' (i + 1) (n - i - 1) := by
  have h2 := List.range'_append 0 i (n - i) 1
  rw [show 0 + 1 * i = i from by omega, show (n - i) + i = n from by omega] at h2
  rw [List.range_eq_range', ← h2]
  congr 1
  rw [show n - i = (n - i - 1) + 1 from by omega]
  rfl

theorem positionsOf_split {s : List Char} {i : Nat} (h : i < s.length) :
    positionsOf s (getC s i) =
      (List.range' 0 i).filter (fun j => getC s j = getC s i) ++
      i :: (List.range' (i + 1) (s.length - i - 1)).filter (fun j => getC s j = getC s i) := by
  unfold positionsOf
  rw [range_split s.length i h, List.filter_append, List.filter_cons_of_pos (by simp)]

/-- The length of the diagonal run of unpurged positions ending at `j`
(the value of the self-comparison DP on the diagonal). -/
def diagD (s : List Char) : Nat → Nat
  | 0 => if ((b2jOf s).lookup (getC s 0)).isSome then 1 else 0
  | j + 1 => if ((b2jOf s).lookup (getC s (j + 1))).isSome then diagD s j + 1 else 0

theorem diagD_le (s : List Char) (j : Nat) : diagD s j ≤ j + 1 := by
  induction j with
  | zero => unfold diagD; split <;> omega
  | succ j ih => unfold diagD; split <;> omega

theorem diagD_active {s : List Char} {j : Nat}
    (h : ((b2jOf s).lookup (getC s j)).isSome = true) :
    diagD s j = (if j = 0 then 0 else diagD s (j - 1)) + 1 := by
  cases j with
  | zero => simp [diagD, h]
  | succ j => simp [diagD, h]

theorem diagD_inactive {s : List Char} {j : Nat}
    (h : ((b2jOf s).lookup (getC s j)).isSome = false) :
    diagD s j = 0 := by
  cases j <;> simp [diagD, h]

theorem js_mem_facts {s : List Char} {i : Nat}
    {j : Nat} (hj : j ∈ ((b2jOf s).lookup (getC s i)).getD []) :
    j < s.length ∧ getC s j = getC s i := by
  cases hl : (b2jOf s).lookup (getC s i) with
  | none => rw [hl] at hj; simp at hj
  | some js =>
    rw [hl] at hj
    simp only [Option.getD_some] at hj
    rw [b2jOf_entry (lookup_mem hl)] at hj
    exact mem_positionsOf.mp hj

theorem innerLoop_noupd (bhi i : Nat) (prev : List (Nat × Nat)) :
    ∀ (js : List Nat) (st : FlmState),
    (∀ j ∈ js, j < bhi) →
    (∀ j ∈ js, j2get prev j + 1 ≤ st.bestsize) →
    innerLoop 0 bhi i prev js st =
      ⟨st.j2new ++ js.map (fun j => (j, j2get prev j + 1)),
       st.besti, st.bestj, st.bestsize⟩ := by
  intro js
  induction js with
  | nil => intro st _ _; simp [innerLoop]
  | cons j js ih =>
    intro st h1 h2
    have hj := h1 j (List.mem_cons_self _ _)
    have hk := h2 j (List.mem_cons_self _ _)
    simp only [innerLoop]
    rw [if_neg (Nat.not_lt_zero j), if_neg (by omega : ¬ bhi ≤ j),
      if_neg (by omega : ¬ st.bestsize < j2get prev j + 1)]
    rw [ih ⟨st.j2new ++ [(j, j2get prev j + 1)], st.besti, st.bestj, st.bestsize⟩
      (fun x hx => h1 x (List.mem_cons_of_mem _ hx))
      (fun x hx => h2 x (List.mem_cons_of_mem _ hx))]
    simp

theorem innerLoop_append (bhi i : Nat) (prev : List (Nat × Nat)) :
    ∀ (l1 l2 : List Nat) (st : FlmState), (∀ j ∈ l1, j < bhi) →
    innerLoop 0 bhi i prev (l1 ++ l2) st =
      innerLoop 0 bhi i prev l2 (innerLoop 0 bhi i prev l1 st) := by
  intro l1
  induction l1 with
  | nil => intro l2 st _; rfl
  | cons j t ih =>
    intro l2 st h1
    have hj := h1 j (List.mem_cons_self _ _)
    simp only [List.cons_append, innerLoop]
    rw [if_neg (Nat.not_lt_zero j), if_neg (by omega : ¬ bhi ≤ j),
      if_neg (Nat.not_lt_zero j), if_neg (by omega : ¬ bhi ≤ j)]
    exact ih l2 _ (fun x hx => h1 x (List.mem_cons_of_mem _ hx))

theorem innerLoop_cons_step (bhi i : Nat) (prev : List (Nat × Nat)) (js : List Nat)
    (st : FlmState) (h : i < bhi) :
    innerLoop 0 bhi i prev (i :: js) st =
      innerLoop 0 bhi i prev js
        (if st.bestsize < j2get prev i + 1 then
          ⟨st.j2new ++ [(i, j2get prev i + 1)], i + 1 - (j2get prev i + 1),
           i + 1 - (j2get prev i + 1), j2get prev i + 1⟩
         else ⟨st.j2new ++ [(i, j2get prev i + 1)], st.besti, st.bestj, st.bestsize⟩) := by
  simp only [innerLoop]
  rw [if_neg (Nat.not_lt_zero i), if_neg (by omega : ¬ bhi ≤ i)]

/-- The invariant of `find_longest_match`'s outer loop when comparing a
sequence with itself: the best match so far lies on the diagonal and fits
in range, the best size dominates every completed diagonal run, and the
previous row's DP entries are bounded by (and, on the diagonal, equal to)
the corresponding diagonal runs. -/
def flmInv (s : List Char) (i : Nat) (prev : List (Nat × Nat)) (best : Nat × Nat × Nat) : Prop :=
  best.1 = best.2.1 ∧
  best.1 + best.2.2 ≤ s.length ∧
  (∀ d, d < i → diagD s d ≤ best.2.2) ∧
  (∀ t v, prev.lookup t = some v → 1 ≤ i ∧ v ≤ diagD s (min (i - 1) t)) ∧
  (1 ≤ i → ((b2jOf s).lookup (getC s (i - 1))).isSome = true →
    prev.lookup (i - 1) = some (diagD s (i - 1)))

theorem j2get_zero (prev : List (Nat × Nat)) : j2get prev 0 = 0 := rfl

theorem j2get_le {s : List Char} {i : Nat} {prev : List (Nat × Nat)}
    (hA : ∀ t v, prev.lookup t = some v → 1 ≤ i ∧ v ≤ diagD s (min (i - 1) t))
    (j : Nat) (hj : 1 ≤ j) : j2get prev j ≤ diagD s (min (i - 1) (j - 1)) := by
  unfold j2get
  rw [if_neg (by omega : ¬ j = 0)]
  cases hl : prev.lookup (j - 1) with
  | none => simp
  | some v => simpa using (hA _ _ hl).2

theorem ki_exact {s : List Char} {i : Nat}
    (hact : ((b2jOf s).lookup (getC s i)).isSome = true)
    {prev : List (Nat × Nat)}
    (hA : ∀ t v, prev.lookup t = some v → 1 ≤ i ∧ v ≤ diagD s (min (i - 1) t))
    (hE : 1 ≤ i → ((b2jOf s).lookup (getC s (i - 1))).isSome = true →
      prev.lookup (i - 1) = some (diagD s (i - 1))) :
    j2get prev i + 1 = diagD s i := by
  cases i with
  | zero => rw [diagD_active hact, j2get_zero]; simp
  | succ m =>
    have hgoal : j2get prev (m + 1) = diagD s m := by
      cases hu : ((b2jOf s).lookup (getC s m)).isSome with
      | true =>
        have hEm := hE (by omega) (by simpa using hu)
        simp only [Nat.add_sub_cancel] at hEm
        unfold j2get
        rw [if_neg (by omega : ¬ m + 1 = 0)]
        simp only [Nat.add_sub_cancel]
        rw [hEm]
        rfl
      | false =>
        have hd : diagD s m = 0 := diagD_inactive (by simpa using hu)
        have hb := j2get_le hA (m + 1) (by omega)
        simp only [Nat.add_sub_cancel, Nat.min_self] at hb
        omega
    rw [diagD_active hact, if_neg (by omega : ¬ m + 1 = 0)]
    simp only [Nat.add_sub_cancel]
    omega

theorem lookupN_mem {l : List (Nat × Nat)} {k v : Nat} (h : l.lookup k = some v) :
    (k, v) ∈ l := by
  induction l with
  | nil => simp [List.lookup] at h
  | cons p t ih =>
    rcases p with ⟨k0, v0⟩
    rw [lookup_cons_eq] at h
    by_cases hk : k = k0
    · rw [if_pos hk] at h
      simp only [Option.some.injEq] at h
      subst hk; subst h
      exact List.mem_cons_self _ _
    · rw [if_neg hk] at h
      exact List.mem_cons_of_mem _ (ih h)

theorem lookup_append_skip {l1 l2 : List (Nat × Nat)} {t : Nat}
    (h : ∀ p ∈ l1, p.1 ≠ t) : (l1 ++ l2).lookup t = l2.lookup t := by
  induction l1 with
  | nil => rfl
  | cons p l1 ih =>
    rcases p with ⟨k0, v0⟩
    rw [List.cons_append, lookup_cons_eq,
      if_neg (fun he => (h (k0, v0) (List.mem_cons_self _ _)) he.symm)]
    exact ih (fun p hp => h p (List.mem_cons_of_mem _ hp))

theorem mem_mapg {js : List Nat} {g : Nat → Nat} {t v : Nat}
    (h : (t, v) ∈ js.map (fun j => (j, g j))) : t ∈ js ∧ v = g t := by
  rw [List.mem_map] at h
  obtain ⟨j, hj, he⟩ := h
  simp only [Prod.mk.injEq] at he
  obtain ⟨h1, h2⟩ := he
  subst h1
  exact ⟨hj, h2.symm⟩

theorem row_invariant {s : List Char} {i : Nat} (hi : i < s.length)
    {prev : List (Nat × Nat)} {best : Nat × Nat × Nat}
    (hinv : flmInv s i prev best) :
    flmInv s (i + 1)
      (innerLoop 0 s.length i prev (((b2jOf s).lookup (getC s i)).getD [])
        ⟨[], best.1, best.2.1, best.2.2⟩).j2new
      ((innerLoop 0 s.length i prev (((b2jOf s).lookup (getC s i)).getD [])
          ⟨[], best.1, best.2.1, best.2.2⟩).besti,
       (innerLoop 0 s.length i prev (((b2jOf s).lookup (getC s i)).getD [])
          ⟨[], best.1, best.2.1, best.2.2⟩).bestj,
       (innerLoop 0 s.length i prev (((b2jOf s).lookup (getC s i)).getD [])
          ⟨[], best.1, best.2.1, best.2.2⟩).bestsize) := by
  obtain ⟨hdiag, hsum, hB, hA, hE⟩ := hinv
  cases hact : ((b2jOf s).lookup (getC s i)).isSome with
  | false =>
    have hjs : ((b2jOf s).lookup (getC s i)).getD [] = [] := by
      cases hl : (b2jOf s).lookup (getC s i) with
      | none => rfl
      | some v => rw [hl] at hact; simp at hact
    rw [hjs]
    rw [show innerLoop 0 s.length i prev []
      (⟨[], best.1, best.2.1, best.2.2⟩ : FlmState) =
      ⟨[], best.1, best.2.1, best.2.2⟩ from rfl]
    refine ⟨hdiag, hsum, ?_, ?_, ?_⟩
    · intro d hd
      rcases Nat.lt_succ_iff_lt_or_eq.mp hd with hd' | rfl
      · exact hB d hd'
      · rw [diagD_inactive (by simpa using hact)]
        omega
    · intro t v hv
      simp [List.lookup] at hv
    · intro _ hu
      simp only [Nat.add_sub_cancel] at hu
      rw [hact] at hu
      exact absurd hu (by simp)
  | true =>
    obtain ⟨jsv, hl⟩ := Option.isSome_iff_exists.mp hact
    have hjs : ((b2jOf s).lookup (getC s i)).getD [] = jsv := by rw [hl]; rfl
    have hjsval : jsv = positionsOf s (getC s i) := b2jOf_entry (lookup_mem hl)
    rw [hjs, hjsval, positionsOf_split hi]
    have hLmem : ∀ j ∈ (List.range' 0 i).filter (fun j => getC s j = getC s i),
        j < i ∧ getC s j = getC s i := by
      intro j hjm
      have h1 := List.mem_filter.mp hjm
      refine ⟨?_, by simpa using h1.2⟩
      have h2 := List.mem_range'_1.mp h1.1
      omega
    have hHmem : ∀ j ∈ (List.range' (i + 1) (s.length - i - 1)).filter
        (fun j => getC s j = getC s i),
        i < j ∧ j < s.length ∧ getC s j = getC s i := by
      intro j hjm
      have h1 := List.mem_filter.mp hjm
      have h2 := List.mem_range'_1.mp h1.1
      exact ⟨by omega, by omega, by simpa using h1.2⟩
    have hactOf : ∀ j, getC s j = getC s i →
        ((b2jOf s).lookup (getC s j)).isSome = true := by
      intro j hjc
      rw [hjc]
      exact hact
    have hK : ∀ j, j < i → getC s j = getC s i → j2get prev j + 1 ≤ diagD s j := by
      intro j hji hjc
      cases j with
      | zero =>
        rw [j2get_zero, diagD_active (hactOf 0 hjc)]
        simp
      | succ m =>
        have hb := j2get_le hA (m + 1) (by omega)
        rw [show min (i - 1) (m + 1 - 1) = m from by omega] at hb
        rw [diagD_active (hactOf (m + 1) hjc), if_neg (by omega : ¬ m + 1 = 0)]
        simp only [Nat.add_sub_cancel]
        omega
    have hL2 : ∀ j ∈ (List.range' 0 i).filter (fun j => getC s j = getC s i),
        j2get prev j + 1 ≤ best.2.2 := by
      intro j hjm
      obtain ⟨hji, hjc⟩ := hLmem j hjm
      exact le_trans (hK j hji hjc) (hB j hji)
    have hH2 : ∀ j, i < j → getC s j = getC s i → j2get prev j + 1 ≤ diagD s i := by
      intro j hij hjc
      have hb := j2get_le hA j (by omega)
      rw [show min (i - 1) (j - 1) = i - 1 from by omega] at hb
      cases i with
      | zero =>
        have hz : j2get prev j = 0 := by
          unfold j2get
          split
          · rfl
          · cases hl2 : prev.lookup (j - 1) with
            | none => rfl
            | some v => exact absurd ((hA _ _ hl2).1) (by omega)
        rw [hz, diagD_active hact]
        simp
      | succ m =>
        rw [diagD_active hact, if_neg (by omega : ¬ m + 1 = 0)]
        simp only [Nat.add_sub_cancel] at hb ⊢
        omega
    have hki := ki_exact hact hA hE
    have hallL : ∀ j ∈ (List.range' 0 i).filter (fun j => getC s j = getC s i),
        j < s.length := fun j hj => lt_trans (hLmem j hj).1 hi
    rw [innerLoop_append s.length i prev _ _ _ hallL]
    rw [innerLoop_noupd s.length i prev _ ⟨[], best.1, best.2.1, best.2.2⟩ hallL hL2]
    rw [innerLoop_cons_step s.length i prev _ _ hi]
    by_cases hupd : best.2.2 < j2get prev i + 1
    · rw [if_pos hupd]
      rw [innerLoop_noupd s.length i prev _ _ (fun j hj => (hHmem j hj).2.1)
        (fun j hj => le_trans (hH2 j (hHmem j hj).1 (hHmem j hj).2.2)
          (le_of_eq hki.symm))]
      refine ⟨rfl, ?_, ?_, ?_, ?_⟩
      · have h1 := diagD_le s i
        simp only
        omega
      · intro d hd
        simp only
        rcases Nat.lt_succ_iff_lt_or_eq.mp hd with h | rfl
        · exact le_trans (hB d h) (by omega)
        · omega
      · intro t v hv
        simp only [List.nil_append, Nat.add_sub_cancel] at hv ⊢
        refine ⟨by omega, ?_⟩
        have hmem := lookupN_mem hv
        rw [List.append_assoc, List.singleton_append] at hmem
        rcases List.mem_append.mp hmem with hm | hm
        · obtain ⟨hjm, hveq⟩ := mem_mapg hm
          obtain ⟨hlt, hceq⟩ := hLmem t hjm
          subst hveq
          rw [show min i t = t from by omega]
          exact hK t hlt hceq
        · rcases List.mem_cons.mp hm with he | hm2
          · simp only [Prod.mk.injEq] at he
            obtain ⟨h1, h2⟩ := he
            subst h1; subst h2
            rw [Nat.min_self]
            omega
          · obtain ⟨hjm, hveq⟩ := mem_mapg hm2
            obtain ⟨hgt, _, hceq⟩ := hHmem t hjm
            subst hveq
            rw [show min i t = i from by omega]
            exact hH2 t hgt hceq
      · intro _ hu
        simp only [List.nil_append, Nat.add_sub_cancel] at hu ⊢
        rw [List.append_assoc, List.singleton_append]
        rw [lookup_append_skip (fun p hp => ?_), lookup_cons_eq, if_pos rfl]
        · rw [hki]
        · obtain ⟨j, hjm, he⟩ := List.mem_map.mp hp
          have hlt := (hLmem j hjm).1
          rw [← he]
          simp only
          omega
    · rw [if_neg hupd]
      rw [innerLoop_noupd s.length i prev _ _ (fun j hj => (hHmem j hj).2.1)
        (fun j hj => le_trans (hH2 j (hHmem j hj).1 (hHmem j hj).2.2) (by simp only; omega))]
      refine ⟨hdiag, hsum, ?_, ?_, ?_⟩
      · intro d hd
        simp only
        rcases Nat.lt_succ_iff_lt_or_eq.mp hd with h | rfl
        · exact hB d h
        · omega
      · intro t v hv
        simp only [List.nil_append, Nat.add_sub_cancel] at hv ⊢
        refine ⟨by omega, ?_⟩
        have hmem := lookupN_mem hv
        rw [List.append_assoc, List.singleton_append] at hmem
        rcases List.mem_append.mp hmem with hm | hm
        · obtain ⟨hjm, hveq⟩ := mem_mapg hm
          obtain ⟨hlt, hceq⟩ := hLmem t hjm
          subst hveq
          rw [show min i t = t from by omega]
          exact hK t hlt hceq
        · rcases List.mem_cons.mp hm with he | hm2
          · simp only [Prod.mk.injEq] at he
            obtain ⟨h1, h2⟩ := he
            subst h1; subst h2
            rw [Nat.min_self]
            omega
          · obtain ⟨hjm, hveq⟩ := mem_mapg hm2
            obtain ⟨hgt, _, hceq⟩ := hHmem t hjm
            subst hveq
            rw [show min i t = i from by omega]
            exact hH2 t hgt hceq
      · intro _ hu
        simp only [List.nil_append, Nat.add_sub_cancel] at hu ⊢
        rw [List.append_assoc, List.singleton_append]
        rw [lookup_append_skip (fun p hp => ?_), lookup_cons_eq, if_pos rfl]
        · rw [hki]
        · obtain ⟨j, hjm, he⟩ := List.mem_map.mp hp
          have hlt := (hLmem j hjm).1
          rw [← he]
          simp only
          omega

theorem flmOuter_run (s : List Char) :
    ∀ (cnt i : Nat) (prev : List (Nat × Nat)) (best : Nat × Nat × Nat),
    i + cnt = s.length →
    flmInv s i prev best →
    ∃ d bs, flmOuter s (b2jOf s) 0 s.length i cnt prev best = (d, d, bs) ∧
      d + bs ≤ s.length := by
  intro cnt
  induction cnt with
  | zero =>
    intro i prev best _ hinv
    obtain ⟨h1, h2, _, _, _⟩ := hinv
    refine ⟨best.1, best.2.2, ?_, h2⟩
    show best = (best.1, best.1, best.2.2)
    rcases best with ⟨b1, b2, b3⟩
    simp only at h1
    rw [h1]
  | succ cnt ih =>
    intro i prev best hcnt hinv
    have hstep : flmOuter s (b2jOf s) 0 s.length i (cnt + 1) prev best =
        flmOuter s (b2jOf s) 0 s.length (i + 1) cnt
          (innerLoop 0 s.length i prev
            (((b2jOf s).lookup (getC s i)).getD []) ⟨[], best.1, best.2.1, best.2.2⟩).j2new
          ((innerLoop 0 s.length i prev
            (((b2jOf s).lookup (getC s i)).getD []) ⟨[], best.1, best.2.1, best.2.2⟩).besti,
           (innerLoop 0 s.length i prev
            (((b2jOf s).lookup (getC s i)).getD []) ⟨[], best.1, best.2.1, best.2.2⟩).bestj,
           (innerLoop 0 s.length i prev
            (((b2jOf s).lookup (getC s i)).getD []) ⟨[], best.1, best.2.1, best.2.2⟩).bestsize) :=
      rfl
    rw [hstep]
    exact ih (i + 1) _ _ (by omega) (row_invariant (by omega) hinv)

theorem extLeft_diag (s : List Char) :
    ∀ (fuel bi k : Nat), bi ≤ fuel →
    extLeftAux s s [] 0 0 fuel (bi, bi, k) = (0, 0, k + bi) := by
  intro fuel
  induction fuel with
  | zero =>
    intro bi k h
    have hbi : bi = 0 := by omega
    subst hbi
    rfl
  | succ fuel ih =>
    intro bi k h
    cases bi with
    | zero =>
      rw [show extLeftAux s s [] 0 0 (fuel + 1) (0, 0, k) = (0, 0, k) from by
        simp [extLeftAux]]
      simp
    | succ m =>
      rw [show extLeftAux s s [] 0 0 (fuel + 1) (m + 1, m + 1, k) =
          extLeftAux s s [] 0 0 fuel (m, m, k + 1) from by
        simp [extLeftAux]]
      rw [ih m (k + 1) (by omega), show k + 1 + m = k + (m + 1) from by omega]

theorem extRight_diag (s : List Char) :
    ∀ (fuel k : Nat), s.length ≤ k + fuel → k ≤ s.length →
    extRightAux s s [] s.length s.length fuel (0, 0, k) = (0, 0, s.length) := by
  intro fuel
  induction fuel with
  | zero =>
    intro k h1 h2
    have hk : k = s.length := by omega
    subst hk
    rfl
  | succ fuel ih =>
    intro k h1 h2
    by_cases hk : k < s.length
    · rw [show extRightAux s s [] s.length s.length (fuel + 1) (0, 0, k) =
          extRightAux s s [] s.length s.length fuel (0, 0, k + 1) from by
        simp [extRightAux, hk]]
      exact ih (k + 1) (by omega) (by omega)
    · have hk2 : k = s.length := by omega
      subst hk2
      rw [show extRightAux s s [] s.length s.length (fuel + 1) (0, 0, s.length) =
          (0, 0, s.length) from by simp [extRightAux]]

theorem extLeftJunk_nil (a b : List Char) (alo blo : Nat) :
    ∀ (fuel : Nat) (st : Nat × Nat × Nat),
    extLeftJunkAux a b [] alo blo fuel st = st := by
  intro fuel st
  cases fuel with
  | zero => rfl
  | succ fuel =>
    rcases st with ⟨bi, bj, k⟩
    simp [extLeftJunkAux]

theorem extRightJunk_nil (a b : List Char) (ahi bhi : Nat) :
    ∀ (fuel : Nat) (st : Nat × Nat × Nat),
    extRightJunkAux a b [] ahi bhi fuel st = st := by
  intro fuel st
  cases fuel with
  | zero => rfl
  | succ fuel =>
    rcases st with ⟨bi, bj, k⟩
    simp [extRightJunkAux]

theorem flm_self (s : List Char) :
    findLongestMatch s s (b2jOf s) [] 0 s.length 0 s.length = (0, 0, s.length) := by
  unfold findLongestMatch
  obtain ⟨d, bs, hrun, hsum⟩ := flmOuter_run s s.length 0 [] (0, 0, 0) (by omega)
    ⟨rfl, by simp, fun d hd => absurd hd (Nat.not_lt_zero d),
     fun t v hv => by simp [List.lookup] at hv, fun h1 _ => absurd h1 (by omega)⟩
  simp only [Nat.sub_zero]
  rw [hrun]
  unfold extLeft extRight extLeftJunk extRightJunk
  dsimp only
  rw [extLeft_diag s d d bs (le_refl d)]
  rw [extRight_diag s s.length (bs + d) (by omega) (by omega)]
  rw [extLeftJunk_nil, extRightJunk_nil]

theorem mblocksGo_nilq (a b : List Char) (B : List (Char × List Nat)) (bjunk : List Char) :
    ∀ (fuel : Nat) (acc : List (Nat × Nat × Nat)),
    mblocksGo a b B bjunk fuel [] acc = acc := by
  intro fuel acc
  cases fuel <;> rfl

theorem getMatchingBlocks_self (s : List Char) (h : s ≠ []) :
    getMatchingBlocks s s = [(0, 0, s.length), (s.length, s.length, 0)] := by
  have hn : 0 < s.length := List.length_pos.mpr h
  unfold getMatchingBlocks
  have h1 : mblocksGo s s (b2jOf s) [] (s.length + s.length + 1)
      [(0, s.length, 0, s.length)] [] = [(0, 0, s.length)] := by
    simp only [mblocksGo, flm_self]
    rw [if_pos (by omega : s.length ≠ 0)]
    rw [if_neg (by omega : ¬ (0 + s.length < s.length ∧ 0 + s.length < s.length))]
    rw [if_neg (by simp : ¬ ((0:Nat) < 0 ∧ (0:Nat) < 0))]
    rw [mblocksGo_nilq]
    simp
  rw [h1]
  show mergeAdj (0, 0, 0) (sortBlocks [(0, 0, s.length)]) ++ [(s.length, s.length, 0)] =
    [(0, 0, s.length), (s.length, s.length, 0)]
  rw [show sortBlocks [(0, 0, s.length)] = [(0, 0, s.length)] from rfl]
  simp only [mergeAdj]
  rw [if_pos (by simp : True ∧ True), if_pos (by omega : (0:Nat) + s.length ≠ 0)]
  simp

theorem ratioQ_self (s : List Char) : ratioQ s s = 1 := by
  by_cases h : s = []
  · subst h; rfl
  · have hn : 0 < s.length := List.length_pos.mpr h
    simp only [ratioQ, getMatchingBlocks_self s h, List.map_cons, List.map_nil,
      List.sum_cons, List.sum_nil]
    rw [if_neg (by omega : ¬ (s.length + s.length = 0))]
    have hq : ((s.length : ℚ) + (s.length : ℚ)) ≠ 0 := by
      have h2 : (0:ℚ) < (s.length : ℚ) + (s.length : ℚ) := by
        exact_mod_cast (by omega : 0 < s.length + s.length)
      exact ne_of_gt h2
    field_simp
    push_cast
    ring

theorem titlesSimilar_self (t : String) : titlesSimilar t t = true := by
  unfold titlesSimilar
  rw [ratioQ_self]
  simp only [decide_eq_true_eq]
  norm_num

/-- C6 counterexample: a batch of two articles with identical titles and
different links, neither matching the (empty) store, on which `filter_new`
raises `ValueError` instead of accepting the first and rejecting the
second: the first link's netloc has an unbalanced bracket. -/
theorem filter_new_batch_raises :
    filter_new "2024-01-01T00:00:00+00:00" []
      [⟨"Same title", "http://[x"⟩, ⟨"Same title", "http://[y"⟩] =
      Except.error PyErr.valueError := rfl

/-- C6 (amended): for every store and every two-article batch with
identical ASCII titles whose links are ASCII without square brackets,
where the first article's normalized URL is not a store key and no
(ASCII) store title is similar to its title, `filter_new` accepts the
first article and rejects the second as an in-batch duplicate
(`SequenceMatcher.ratio` is `1` on equal lowered titles, clearing the
`0.9` threshold).  The ASCII conditions keep the embedding exact:
malformed links raise instead, and non-ASCII text engages `urlsplit`'s
NFKC check and the full Unicode `str.lower`. -/
theorem filter_new_batch_dedup (nowIso : String) (st : Store) (a1 a2 : Article)
    (ht : a2.title = a1.title)
    (hta : ∀ c ∈ a1.title.data, c.toNat < 128)
    (hsta : ∀ t ∈ storeTitles st, ∀ c ∈ t.data, c.toNat < 128)
    (hb1 : (∀ c ∈ a1.link.data, c.toNat < 128) ∧ '[' ∉ a1.link.data ∧ ']' ∉ a1.link.data)
    (hb2 : (∀ c ∈ a2.link.data, c.toNat < 128) ∧ '[' ∉ a2.link.data ∧ ']' ∉ a2.link.data)
    (hurl : ∀ r, normalize_url a1.link = Except.ok r → st.lookup r = none)
    (htitle : ∀ t ∈ storeTitles st, titlesSimilar a1.title t = false) :
    ∃ st', filter_new nowIso st [a1, a2] = Except.ok ([a1], st') := by
  obtain ⟨r1, hr1⟩ := normalizeUrlL_ok_of_no_brackets a1.link.data hb1.2.1 hb1.2.2
  have hnu1 : normalize_url a1.link = Except.ok (String.mk r1) := by
    unfold normalize_url; rw [hr1]; rfl
  obtain ⟨r2, hr2⟩ := normalizeUrlL_ok_of_no_brackets a2.link.data hb2.2.1 hb2.2.2
  have hnu2 : normalize_url a2.link = Except.ok (String.mk r2) := by
    unfold normalize_url; rw [hr2]; rfl
  have hanyf : (storeTitles st).any (fun t => titlesSimilar a1.title t) = false := by
    rw [List.any_eq_false]
    intro t htm
    simp [htitle t htm]
  unfold filter_new
  simp only [filterNewGo, hnu1, hnu2]
  rw [if_neg (show ¬ ((st.lookup (String.mk r1)).isSome = true) from by
    rw [hurl _ hnu1]; simp)]
  rw [if_neg (show ¬ ((storeTitles st).any (fun t => titlesSimilar a1.title t) = true) from by
    rw [hanyf]; simp)]
  by_cases hu2 : ((storeInsert st (String.mk r1)
      ⟨some a1.title, some nowIso⟩).lookup (String.mk r2)).isSome = true
  · rw [if_pos hu2]
    exact ⟨_, rfl⟩
  · rw [if_neg hu2]
    rw [if_pos (List.any_eq_true.mpr ⟨a1.title,
      List.mem_append_right _ (List.mem_cons_self _ _),
      by rw [ht]; exact titlesSimilar_self a1.title⟩)]
    exact ⟨_, rfl⟩

theorem filter_new_batch_dedup_witness :
    ∃ st', filter_new "2024-01-01T00:00:00+00:00" []
      [⟨"Breaking News Today", "https://a.com/x"⟩,
       ⟨"Breaking News Today", "https://b.com/y"⟩] =
      Except.ok ([⟨"Breaking News Today", "https://a.com/x"⟩], st') :=
  filter_new_batch_dedup "2024-01-01T00:00:00+00:00" [] _ _ rfl (by decide)
    (fun t htm => absurd htm (by simp [storeTitles])) (by decide) (by decide)
    (fun r _ => rfl) (fun t htm => absurd htm (by simp [storeTitles]))

/-! ### Appending `&key=x` to a URL with a query -/

theorem mem_dropWhile_of_not {p : Char → Bool} {l : List Char} {c : Char}
    (hc : c ∈ l) (hp : p c = false) : c ∈ l.dropWhile p := by
  induction l with
  | nil => simp at hc
  | cons a t ih =>
    by_cases ha : p a = true
    · rw [List.dropWhile_cons_of_pos ha]
      rcases List.mem_cons.mp hc with rfl | hc2
      · rw [ha] at hp; simp at hp
      · exact ih hc2
    · rw [List.dropWhile_cons_of_neg ha]
      exact hc

theorem takeWhile_append_break {p : Char → Bool} {l : List Char} (t : List Char) {c : Char}
    (hc : c ∈ l) (hp : p c = false) :
    (l ++ t).takeWhile p = l.takeWhile p := by
  induction l with
  | nil => simp at hc
  | cons a l ih =>
    by_cases ha : p a = true
    · rw [List.cons_append, List.takeWhile_cons_of_pos ha, List.takeWhile_cons_of_pos ha]
      have hct : c ∈ l := by
        rcases List.mem_cons.mp hc with rfl | h
        · rw [ha] at hp; simp at hp
        · exact h
      rw [ih hct]
    · rw [List.cons_append, List.takeWhile_cons_of_neg ha, List.takeWhile_cons_of_neg ha]

theorem dropWhile_append_break {p : Char → Bool} {l : List Char} (t : List Char) {c : Char}
    (hc : c ∈ l) (hp : p c = false) :
    (l ++ t).dropWhile p = l.dropWhile p ++ t := by
  induction l with
  | nil => simp at hc
  | cons a l ih =>
    by_cases ha : p a = true
    · rw [List.cons_append, List.dropWhile_cons_of_pos ha, List.dropWhile_cons_of_pos ha]
      have hct : c ∈ l := by
        rcases List.mem_cons.mp hc with rfl | h
        · rw [ha] at hp; simp at hp
        · exact h
      exact ih hct
    · rw [List.cons_append, List.dropWhile_cons_of_neg ha, List.dropWhile_cons_of_neg ha,
        List.cons_append]

theorem takeWhile_lt {p : Char → Bool} {l : List Char} {c : Char}
    (hc : c ∈ l) (hp : p c = false) : (l.takeWhile p).length < l.length := by
  induction l with
  | nil => simp at hc
  | cons a t ih =>
    by_cases ha : p a = true
    · rw [List.takeWhile_cons_of_pos ha]
      have hct : c ∈ t := by
        rcases List.mem_cons.mp hc with rfl | h
        · rw [ha] at hp; simp at hp
        · exact h
      simpa using ih hct
    · rw [List.takeWhile_cons_of_neg ha]
      simp

theorem tail_append_of_ne_nil {l t : List Char} (h : l ≠ []) :
    (l ++ t).tail = l.tail ++ t := by
  cases l with
  | nil => exact absurd rfl h
  | cons a l => rfl

theorem mem_cleanUrl {u : List Char} {c : Char} (hc : c ∈ u)
    (h1 : c0OrSpace c = false) (h2 : unsafeUrlByte c = false) : c ∈ cleanUrl u := by
  unfold cleanUrl
  exact List.mem_filter.mpr ⟨mem_dropWhile_of_not hc h1, by simp [h2]⟩

theorem cleanUrl_append {u suf : List Char} {c : Char} (hc : c ∈ u)
    (hcc : c0OrSpace c = false)
    (hsufc : ∀ d ∈ suf, unsafeUrlByte d = false) :
    cleanUrl (u ++ suf) = cleanUrl u ++ suf := by
  unfold cleanUrl
  rw [dropWhile_append_break suf hc hcc, List.filter_append]
  congr 1
  rw [List.filter_eq_self]
  intro d hd
  simp [hsufc d hd]

theorem usSchemeSplit_append {w suf : List Char} (hq : '?' ∈ w) :
    usSchemeSplit (w ++ suf) = ((usSchemeSplit w).1, (usSchemeSplit w).2 ++ suf) := by
  cases w with
  | nil => simp at hq
  | cons a wt =>
    by_cases hcol : ':' ∈ a :: wt
    · have hbr : (fun c => decide (c ≠ ':')) ':' = false := by simp
      have htw : ((a :: wt) ++ suf).takeWhile (fun c => decide (c ≠ ':')) =
          (a :: wt).takeWhile (fun c => decide (c ≠ ':')) :=
        takeWhile_append_break suf hcol hbr
      have hlt : ((a :: wt).takeWhile (fun c => decide (c ≠ ':'))).length <
          (a :: wt).length := takeWhile_lt hcol hbr
      simp only [usSchemeSplit, List.cons_append] at htw ⊢
      rw [htw]
      by_cases hrest : 0 < ((a :: wt).takeWhile (fun c => decide (c ≠ ':'))).length ∧
          a.isAlpha = true ∧
          ((a :: wt).takeWhile (fun c => decide (c ≠ ':'))).all schemeChar = true
      · rw [if_pos ⟨by
            have h9 := hlt
            simp only [List.length_cons, List.length_append] at h9 ⊢
            omega, hrest.1, hrest.2.1, hrest.2.2⟩,
          if_pos ⟨hlt, hrest.1, hrest.2.1, hrest.2.2⟩]
        have hle : ((a :: wt).takeWhile (fun c => decide (c ≠ ':'))).length + 1 ≤
            (a :: wt).length := by omega
        dsimp only
        rw [← List.cons_append, List.drop_append_of_le_length hle]
      · rw [if_neg (fun hcond => hrest ⟨hcond.2.1, hcond.2.2.1, hcond.2.2.2⟩),
          if_neg (fun hcond => hrest ⟨hcond.2.1, hcond.2.2.1, hcond.2.2.2⟩)]
        dsimp only
        rw [List.cons_append]
    · have hall : ∀ c ∈ a :: wt, (fun c => decide (c ≠ ':')) c = true := by
        intro c hcm
        simp only [decide_eq_true_eq]
        intro he
        subst he
        exact hcol hcm
      have htw1 : (a :: wt).takeWhile (fun c => decide (c ≠ ':')) = a :: wt :=
        List.takeWhile_eq_self_iff.mpr hall
      have htw2 : ((a :: wt) ++ suf).takeWhile (fun c => decide (c ≠ ':')) =
          (a :: wt) ++ suf.takeWhile (fun c => decide (c ≠ ':')) :=
        List.takeWhile_append_of_pos hall
      simp only [usSchemeSplit, List.cons_append] at htw2 ⊢
      rw [htw2, htw1]
      rw [if_neg ?_, if_neg ?_]
      · dsimp only
        rw [List.cons_append]
      · intro hcond
        omega
      · intro hcond
        have hmem : '?' ∈ (a :: wt) ++ suf.takeWhile (fun c => decide (c ≠ ':')) :=
          List.mem_append_left _ hq
      
        have := List.all_eq_true.mp hcond.2.2.2 '?' (by
          rw [List.cons_append] at hmem
          simpa using hmem)
        simp [schemeChar] at this

theorem usNetlocSplit_slash (rest : List Char) :
    usNetlocSplit ('/' :: '/' :: rest) =
      (rest.takeWhile (fun c => c ≠ '/' ∧ c ≠ '?' ∧ c ≠ '#'),
       rest.dropWhile (fun c => c ≠ '/' ∧ c ≠ '?' ∧ c ≠ '#')) := rfl

theorem usNetlocSplit_not_slash {v : List Char} (h : v.take 2 ≠ chs "//") :
    usNetlocSplit v = ([], v) := by
  unfold usNetlocSplit
  split
  · rename_i rest
    exact absurd rfl h
  · rfl

theorem usNetlocSplit_snd_sub (v : List Char) : ∀ c ∈ (usNetlocSplit v).2, c ∈ v := by
  intro c hc
  unfold usNetlocSplit at hc
  split at hc
  · exact List.mem_cons_of_mem _ (List.mem_cons_of_mem _ ((List.dropWhile_suffix _).subset hc))
  · exact hc

theorem usNetlocSplit_append {v suf : List Char} (hq : '?' ∈ v) :
    usNetlocSplit (v ++ suf) = ((usNetlocSplit v).1, (usNetlocSplit v).2 ++ suf) := by
  by_cases hshape : v.take 2 = chs "//"
  · rcases v with _ | ⟨a, _ | ⟨b, rest⟩⟩
    · simp at hq
    · simp [chs] at hshape
    · simp only [List.take, chs] at hshape
      have ha : a = '/' := by
        have := congrArg (fun l => l.getD 0 ' ') hshape
        simpa using this
      have hb : b = '/' := by
        have := congrArg (fun l => l.getD 1 ' ') hshape
        simpa using this
      subst ha; subst hb
      have hqr : '?' ∈ rest := by
        rcases List.mem_cons.mp hq with h | h
        · exact absurd h (by decide)
        · rcases List.mem_cons.mp h with h2 | h2
          · exact absurd h2 (by decide)
          · exact h2
      have hbr : (fun c => decide (c ≠ '/' ∧ c ≠ '?' ∧ c ≠ '#')) '?' = false := by decide
      rw [show ('/' :: '/' :: rest) ++ suf = '/' :: '/' :: (rest ++ suf) from rfl]
      rw [usNetlocSplit_slash, usNetlocSplit_slash]
      rw [takeWhile_append_break suf hqr hbr, dropWhile_append_break suf hqr hbr]
  · have hshape2 : (v ++ suf).take 2 ≠ chs "//" := by
      rcases v with _ | ⟨a, _ | ⟨b, rest⟩⟩
      · simp at hq
      · have ha : a = '?' := ((by simpa using hq) : '?' = a).symm
        subst ha
        cases suf with
        | nil => simp [chs]
        | cons x t =>
          intro hcon
          simp only [List.cons_append, List.nil_append, List.take, chs] at hcon
          have := congrArg (fun l => l.getD 0 ' ') hcon
          simp at this
      · intro hcon
        apply hshape
        simpa [List.take] using hcon
    rw [usNetlocSplit_not_slash hshape, usNetlocSplit_not_slash hshape2]

theorem mem_usSchemeSplit_snd {w : List Char} (hq : '?' ∈ w) : '?' ∈ (usSchemeSplit w).2 := by
  simp only [usSchemeSplit]
  split
  · rename_i hcond
    have hnp : '?' ∉ w.takeWhile (fun c => decide (c ≠ ':')) := by
      intro hmem
      have := List.all_eq_true.mp hcond.2.2.2 '?' hmem
      simp [schemeChar] at this
    have hsplit := List.takeWhile_append_dropWhile (fun c => decide (c ≠ ':')) w
    have hqd : '?' ∈ w.dropWhile (fun c => decide (c ≠ ':')) := by
      rw [← hsplit] at hq
      rcases List.mem_append.mp hq with h | h
      · exact absurd h hnp
      · exact h
    obtain ⟨d, dtl, hd⟩ := List.exists_cons_of_ne_nil (List.ne_nil_of_mem hqd)
    have hdcol : d = ':' := by
      have := dropWhile_head_not (fun c => decide (c ≠ ':')) w d (by rw [hd]; rfl)
      simpa using this
    have hq2 : '?' ∈ dtl := by
      rw [hd] at hqd
      rcases List.mem_cons.mp hqd with h | h
      · rw [hdcol] at h; exact absurd h (by decide)
      · exact h
    have hw : w = w.takeWhile (fun c => decide (c ≠ ':')) ++ d :: dtl := by
      rw [← hd, hsplit]
    dsimp only
    set pre := w.takeWhile (fun c => decide (c ≠ ':')) with hpre
    have hdrop : w.drop (pre.length + 1) = dtl := by
      conv_lhs => rw [hw]
      rw [List.drop_append 1]
      rfl
    rw [hdrop]
    exact hq2
  · exact hq

theorem mem_usNetlocSplit_snd {v : List Char} (hq : '?' ∈ v) : '?' ∈ (usNetlocSplit v).2 := by
  unfold usNetlocSplit
  split
  · rename_i rest
    have hqr : '?' ∈ rest := by
      rcases List.mem_cons.mp hq with h | h
      · exact absurd h (by decide)
      · rcases List.mem_cons.mp h with h2 | h2
        · exact absurd h2 (by decide)
        · exact h2
    exact mem_dropWhile_of_not hqr (by decide)
  · exact hq

theorem urlsplitE_append {u suf : List Char}
    (hq : '?' ∈ u) (hh : '#' ∉ u) (hsh : '#' ∉ suf)
    (hsufc : ∀ d ∈ suf, unsafeUrlByte d = false) :
    urlsplitE (u ++ suf) =
      (urlsplitE u).map
        (fun sp => ⟨sp.scheme, sp.netloc, sp.path, sp.query ++ suf, sp.fragment⟩) := by
  have hqc : '?' ∈ cleanUrl u := mem_cleanUrl hq (by decide) (by decide)
  have hw : cleanUrl (u ++ suf) = cleanUrl u ++ suf :=
    cleanUrl_append hq (by decide) hsufc
  have hq2 : '?' ∈ (usSchemeSplit (cleanUrl u)).2 := mem_usSchemeSplit_snd hqc
  have hq3 : '?' ∈ (usNetlocSplit (usSchemeSplit (cleanUrl u)).2).2 := mem_usNetlocSplit_snd hq2
  have hh3 : '#' ∉ (usNetlocSplit (usSchemeSplit (cleanUrl u)).2).2 := by
    intro hmem
    exact hh (cleanUrl_sub (usSchemeSplit_snd_sub _ '#' (usNetlocSplit_snd_sub _ '#' hmem)))
  have hnet : usNetloc (u ++ suf) = usNetloc u := by
    unfold usNetloc
    rw [hw, usSchemeSplit_append hqc, usNetlocSplit_append hq2]
  rw [urlsplitE_check u, urlsplitE_check (u ++ suf), hnet]
  by_cases hbr : ('[' ∈ usNetloc u ∧ ']' ∉ usNetloc u) ∨ (']' ∈ usNetloc u ∧ '[' ∉ usNetloc u)
  · rw [if_pos hbr, if_pos hbr]
    rfl
  · rw [if_neg hbr, if_neg hbr]
    show Except.ok (usOkSplit (u ++ suf)) = Except.ok
      ⟨(usOkSplit u).scheme, (usOkSplit u).netloc, (usOkSplit u).path,
       (usOkSplit u).query ++ suf, (usOkSplit u).fragment⟩
    congr 1
    unfold usOkSplit usNetloc
    rw [hw, usSchemeSplit_append hqc, usNetlocSplit_append hq2]
    dsimp only
    have hc1 : ('#' ∈ (usNetlocSplit (usSchemeSplit (cleanUrl u)).2).2 ++ suf) = False :=
      eq_false (fun hmem => by
        rcases List.mem_append.mp hmem with h | h
        · exact hh3 h
        · exact hsh h)
    have hc2 : ('#' ∈ (usNetlocSplit (usSchemeSplit (cleanUrl u)).2).2) = False :=
      eq_false hh3
    have hc3 : ('?' ∈ (usNetlocSplit (usSchemeSplit (cleanUrl u)).2).2 ++ suf) = True :=
      eq_true (List.mem_append_left suf hq3)
    have hc4 : ('?' ∈ (usNetlocSplit (usSchemeSplit (cleanUrl u)).2).2) = True :=
      eq_true hq3
    simp only [hc1, hc2, hc3, hc4, if_true, if_false]
    rw [takeWhile_append_break suf hq3 (by decide),
      dropWhile_append_break suf hq3 (by decide),
      tail_append_of_ne_nil (List.ne_nil_of_mem (mem_dropWhile_of_not hq3 (by decide)))]

theorem splitOnP_append_sep (p : Char → Bool) {c : Char} (hp : p c = true) :
    ∀ (a b : List Char), List.splitOnP p (a ++ c :: b) =
      List.splitOnP p a ++ List.splitOnP p b := by
  intro a
  induction a with
  | nil =>
    intro b
    rw [List.nil_append, List.splitOnP_cons, if_pos hp, List.splitOnP_nil]
    rfl
  | cons x a ih =>
    intro b
    by_cases hx : p x = true
    · rw [List.cons_append, List.splitOnP_cons, if_pos hx, List.splitOnP_cons, if_pos hx,
        ih b]
      rfl
    · rw [List.cons_append, List.splitOnP_cons, if_neg hx, List.splitOnP_cons, if_neg hx,
        ih b]
      obtain ⟨h, t, hobt⟩ := List.exists_cons_of_ne_nil (List.splitOnP_ne_nil p a)
      rw [hobt]
      rfl

theorem splitOn_append_sep (c : Char) (a b : List Char) :
    List.splitOn c (a ++ c :: b) = List.splitOn c a ++ List.splitOn c b :=
  splitOnP_append_sep _ (by simp) a b

theorem splitOnP_no_sep (p : Char → Bool) : ∀ (l : List Char), (∀ x ∈ l, p x = false) →
    List.splitOnP p l = [l] := by
  intro l
  induction l with
  | nil => intro _; exact List.splitOnP_nil p
  | cons x t ih =>
    intro h
    rw [List.splitOnP_cons, if_neg (by simp [h x (List.mem_cons_self _ _)]),
      ih (fun y hy => h y (List.mem_cons_of_mem _ hy))]
    rfl

theorem splitOn_no_sep {c : Char} {l : List Char} (h : c ∉ l) : List.splitOn c l = [l] :=
  splitOnP_no_sep _ l (fun x hx => beq_eq_false_iff_ne.mpr (fun he => h (he ▸ hx)))

theorem splitOn_cons_sep (c : Char) (l : List Char) :
    List.splitOn c (c :: l) = [] :: List.splitOn c l := by
  show List.splitOnP (· == c) (c :: l) = [] :: List.splitOnP (· == c) l
  rw [List.splitOnP_cons, if_pos (by simp)]

theorem qslPair_tracking {k : List Char} (hne : '=' ∉ k) :
    qslPair (k ++ chs "=x") = some (unquotePlusL k, chs "x") := by
  have hall : ∀ x ∈ k, (fun c => decide (c ≠ '=')) x = true := by
    intro x hx
    simp only [decide_eq_true_eq]
    intro he; subst he; exact hne hx
  unfold qslPair
  rw [if_neg (by simp [chs] : ¬ (k ++ chs "=x" = []))]
  rw [List.dropWhile_append_of_pos hall]
  rw [show (chs "=x").dropWhile (fun c => decide (c ≠ '=')) = '=' :: chs "x" from rfl]
  show (if chs "x" = [] then none
    else some (unquotePlusL ((k ++ chs "=x").takeWhile (fun c => c ≠ '=')),
               unquotePlusL (chs "x"))) = some (unquotePlusL k, chs "x")
  rw [if_neg (by simp [chs] : ¬ (chs "x" = []))]
  rw [List.takeWhile_append_of_pos hall]
  rw [show (chs "=x").takeWhile (fun c => decide (c ≠ '=')) = [] from rfl,
    List.append_nil, show unquotePlusL (chs "x") = chs "x" from rfl]

theorem qslL_append_tracking {q k : List Char} (hk_eq : '=' ∉ k) (hk_amp : '&' ∉ k) :
    qslL (q ++ '&' :: (k ++ chs "=x")) = qslL q ++ [(unquotePlusL k, chs "x")] := by
  have hnosep : '&' ∉ k ++ chs "=x" := by
    intro hm
    rcases List.mem_append.mp hm with h | h
    · exact hk_amp h
    · revert h; decide
  by_cases hq : q = []
  · subst hq
    unfold qslL
    rw [if_neg (by simp), if_pos rfl, List.nil_append, List.nil_append,
      splitOn_cons_sep, splitOn_no_sep hnosep]
    simp only [List.filterMap_cons, show qslPair [] = none from rfl,
      qslPair_tracking hk_eq, List.filterMap_nil]
  · unfold qslL
    rw [if_neg (by simp [hq]), if_neg hq, splitOn_append_sep, List.filterMap_append,
      splitOn_no_sep hnosep]
    simp only [List.filterMap_cons, qslPair_tracking hk_eq, List.filterMap_nil]

theorem groupQs_append_single (ps : List (List Char × List Char)) (k v : List Char) :
    groupQs (ps ++ [(k, v)]) = groupIns (groupQs ps) k v := by
  unfold groupQs
  rw [List.foldl_append]
  rfl

theorem qsFilter_groupIns_tracking {d : List (List Char × List (List Char))}
    {k v : List Char} (hk : lowerL k ∈ TRACKING_PARAMS) :
    qsFilter (groupIns d k v) = qsFilter d := by
  induction d with
  | nil =>
    unfold groupIns qsFilter
    rw [List.filter_cons_of_neg (by simp [hk]), List.filter_nil]
  | cons p t ih =>
    rcases p with ⟨k0, vs⟩
    unfold groupIns
    by_cases hk0 : k0 = k
    · rw [if_pos hk0]
      subst hk0
      unfold qsFilter
      rw [List.filter_cons_of_neg (by simp [hk]), List.filter_cons_of_neg (by simp [hk])]
    · rw [if_neg hk0]
      unfold qsFilter at ih ⊢
      by_cases hk0t : lowerL k0 ∈ TRACKING_PARAMS
      · rw [List.filter_cons_of_neg (by simp [hk0t]), List.filter_cons_of_neg (by simp [hk0t])]
        exact ih
      · rw [List.filter_cons_of_pos (by simp [hk0t]), List.filter_cons_of_pos (by simp [hk0t]),
          ih]

theorem qsFilter_keys (d : List (List Char × List (List Char))) :
    (qsFilter d).map Prod.fst =
      (d.map Prod.fst).filter (fun key => lowerL key ∉ TRACKING_PARAMS) := by
  induction d with
  | nil => rfl
  | cons p t ih =>
    rcases p with ⟨k0, vs⟩
    unfold qsFilter at ih ⊢
    by_cases hk0 : lowerL k0 ∈ TRACKING_PARAMS
    · rw [List.filter_cons_of_neg (by simp [hk0]), List.map_cons,
        List.filter_cons_of_neg (by simp [hk0])]
      exact ih
    · rw [List.filter_cons_of_pos (by simp [hk0]), List.map_cons, List.map_cons,
        List.filter_cons_of_pos (by simp [hk0]), ih]

theorem cleanQuery_append_tracking {q k : List Char}
    (hk_eq : '=' ∉ k) (hk_amp : '&' ∉ k)
    (htr : lowerL (unquotePlusL k) ∈ TRACKING_PARAMS) :
    urlencodeL (qsFilter (groupQs (qslL (q ++ '&' :: (k ++ chs "=x"))))) =
      urlencodeL (qsFilter (groupQs (qslL q))) := by
  rw [qslL_append_tracking hk_eq hk_amp, groupQs_append_single,
    qsFilter_groupIns_tracking htr]

theorem normalizeUrlL_append_tracking {u k : List Char}
    (hq : '?' ∈ u) (hh : '#' ∉ u)
    (hk_eq : '=' ∉ k) (hk_amp : '&' ∉ k) (hk_h : '#' ∉ k)
    (hk_clean : ∀ c ∈ k, unsafeUrlByte c = false)
    (htr : lowerL (unquotePlusL k) ∈ TRACKING_PARAMS) :
    normalizeUrlL (u ++ '&' :: (k ++ chs "=x")) = normalizeUrlL u := by
  have hsh : '#' ∉ '&' :: (k ++ chs "=x") := by
    intro hm
    rcases List.mem_cons.mp hm with h | h
    · exact absurd h (by decide)
    · rcases List.mem_append.mp h with h2 | h2
      · exact hk_h h2
      · revert h2; decide
  have hsufc : ∀ d ∈ '&' :: (k ++ chs "=x"), unsafeUrlByte d = false := by
    intro d hd
    rcases List.mem_cons.mp hd with rfl | h
    · decide
    · rcases List.mem_append.mp h with h2 | h2
      · exact hk_clean d h2
      · simp [chs] at h2
        rcases h2 with rfl | rfl <;> decide
  have hspl := urlsplitE_append hq hh hsh hsufc
  unfold normalizeUrlL urlparseE
  rw [hspl]
  cases hus : urlsplitE u with
  | error e => rfl
  | ok sp =>
    dsimp only [Except.map]
    by_cases hpar : sp.scheme ∈ usesParams ∧ ';' ∈ sp.path
    · rw [if_pos hpar, if_pos hpar]
      dsimp only
      rw [cleanQuery_append_tracking hk_eq hk_amp htr]
    · rw [if_neg hpar, if_neg hpar]
      dsimp only
      rw [cleanQuery_append_tracking hk_eq hk_amp htr]

/-- C4 counterexample: for a URL without `?` (or `#`), the appended
`&ref=x` lands in the path, not the query, so it is not removed:
`normalize("http://h/p" + "&ref=x")` keeps the suffix. -/
theorem normalize_url_append_tracking_cex :
    normalize_url ("http://h/p" ++ "&ref=x") = Except.ok "//h/p&ref=x" ∧
    normalize_url "http://h/p" = Except.ok "//h/p" := ⟨rfl, rfl⟩

/-- C4 (amended): for every URL `u` that contains a `?` and no `#`, and
every key `k` of the tracking set, `normalize(u + "&" + k + "=x")` equals
`normalize(u)` (including the case where both raise `ValueError`); and
the surviving keys of the re-encoded query are exactly the parsed query's
keys with tracking keys deleted, in their original relative order.  When
`u` has no query and no fragment the appended text joins the path and is
kept, refuting the unconditional claim. -/
theorem normalize_url_tracking (u : String) (k : List Char)
    (hk : k ∈ TRACKING_PARAMS) (hq : '?' ∈ u.data) (hh : '#' ∉ u.data) :
    normalize_url (u ++ String.mk ('&' :: (k ++ chs "=x"))) = normalize_url u ∧
    ∀ q : List Char, (qsFilter (groupQs (qslL q))).map Prod.fst =
      ((groupQs (qslL q)).map Prod.fst).filter
        (fun key => lowerL key ∉ TRACKING_PARAMS) := by
  constructor
  · unfold normalize_url
    rw [show (u ++ String.mk ('&' :: (k ++ chs "=x"))).data =
      u.data ++ '&' :: (k ++ chs "=x") from rfl]
    have hs : ∀ kk : List Char, kk = k →
        normalizeUrlL (u.data ++ '&' :: (k ++ chs "=x")) = normalizeUrlL u.data := by
      intro kk hkk
      subst hkk
      simp only [TRACKING_PARAMS, List.mem_cons, List.not_mem_nil, or_false] at hk
      rcases hk with rfl | rfl | rfl | rfl | rfl | rfl | rfl | rfl | rfl | rfl | rfl <;>
        exact normalizeUrlL_append_tracking hq hh (by decide) (by decide) (by decide)
          (by decide) (by decide)
    rw [hs k rfl]
  · intro q
    exact qsFilter_keys (groupQs (qslL q))

theorem normalize_url_tracking_witness :
    (normalize_url ("https://h/a?x=1" ++ String.mk ('&' :: (chs "ref" ++ chs "=x"))) =
      normalize_url "https://h/a?x=1") ∧
    ∀ q : List Char, (qsFilter (groupQs (qslL q))).map Prod.fst =
      ((groupQs (qslL q)).map Prod.fst).filter
        (fun key => lowerL key ∉ TRACKING_PARAMS) :=
  normalize_url_tracking "https://h/a?x=1" (chs "ref") (by decide) (by decide) (by decide)

/-! ### Conditional idempotence of `normalize_url` -/

theorem dropWhile_idem (p : Char → Bool) (l : List Char) :
    (l.dropWhile p).dropWhile p = l.dropWhile p :=
  dropWhile_eq_self_of_head p _ (fun c hc => dropWhile_head_not p l c hc)

theorem rstripSlash_idem (p : List Char) : rstripSlash (rstripSlash p) = rstripSlash p := by
  unfold rstripSlash
  rw [List.reverse_reverse, dropWhile_idem]

theorem lowerL_idem_list (l : List Char) : lowerL (lowerL l) = lowerL l := by
  unfold lowerL
  rw [List.map_map]
  exact List.map_congr_left (fun c _ => toLower_idem c)

theorem lowerL_drop (l : List Char) (n : Nat) : lowerL (l.drop n) = (lowerL l).drop n :=
  List.map_drop Char.toLower l n

theorem hostOfL_shape (n : List Char) :
    ∃ x y, hostOfL n = lowerL x ++ y ∧ (y = [] ∨ ∃ t, y = '%' :: t) := by
  simp only [hostOfL]
  refine ⟨_, _, rfl, ?_⟩
  cases hz : (if '[' ∈ (n.reverse.takeWhile (fun c => c ≠ '@')).reverse then
      (((n.reverse.takeWhile (fun c => c ≠ '@')).reverse.dropWhile
        (fun c => c ≠ '[')).tail).takeWhile (fun c => c ≠ ']')
    else (n.reverse.takeWhile (fun c => c ≠ '@')).reverse.takeWhile
      (fun c => c ≠ ':')).dropWhile (fun c => c ≠ '%') with
  | nil => left; rfl
  | cons d t =>
    right
    have hd := dropWhile_head_not (fun c => decide (c ≠ '%')) _ d (by rw [hz]; rfl)
    simp only [decide_eq_false_iff_not, not_not] at hd
    exact ⟨t, by rw [hd]⟩

theorem hostOfL_self {h : List Char}
    (hat : '@' ∉ h) (hbr : '[' ∉ h) (hcol : ':' ∉ h) (hpc : '%' ∉ h)
    (hlow : lowerL h = h) : hostOfL h = h := by
  simp only [hostOfL]
  have h1 : List.takeWhile (fun c => decide (c ≠ '@')) h.reverse = h.reverse :=
    List.takeWhile_eq_self_iff.mpr (fun c hc => by
      simp only [decide_eq_true_eq]
      intro he; subst he; exact hat (List.mem_reverse.mp hc))
  rw [h1, List.reverse_reverse, if_neg hbr]
  have h3 : List.takeWhile (fun c => decide (c ≠ ':')) h = h :=
    List.takeWhile_eq_self_iff.mpr (fun c hc => by
      simp only [decide_eq_true_eq]
      intro he; subst he; exact hcol hc)
  rw [h3]
  have h4 : List.takeWhile (fun c => decide (c ≠ '%')) h = h :=
    List.takeWhile_eq_self_iff.mpr (fun c hc => by
      simp only [decide_eq_true_eq]
      intro he; subst he; exact hpc hc)
  have h5 : List.dropWhile (fun c => decide (c ≠ '%')) h = [] :=
    List.dropWhile_eq_nil_iff.mpr (fun c hc => by
      simp only [decide_eq_true_eq]
      intro he; subst he; exact hpc hc)
  rw [h4, h5, List.append_nil, hlow]

theorem unparse_shape (h p : List Char) (hne : h ≠ [])
    (hp : p = [] ∨ ∃ t, p = '/' :: t) :
    urlunparseL [] h p [] [] [] = '/' :: '/' :: (h ++ p) := by
  unfold urlunparseL urlunsplitL
  rcases hp with rfl | ⟨t, rfl⟩
  · simp [chs, hne]
  · simp [chs, hne]

theorem urlsplitE_reparse {h p : List Char} (hne : h ≠ [])
    (hhb : ∀ c ∈ h, c ≠ '/' ∧ c ≠ '?' ∧ c ≠ '#')
    (hbr1 : '[' ∉ h) (hbr2 : ']' ∉ h)
    (hhclean : ∀ c ∈ h, unsafeUrlByte c = false)
    (hpsh : p = [] ∨ ∃ t, p = '/' :: t)
    (hpq : '?' ∉ p) (hpf : '#' ∉ p)
    (hpclean : ∀ c ∈ p, unsafeUrlByte c = false) :
    urlsplitE ('/' :: '/' :: (h ++ p)) = Except.ok ⟨[], h, p, [], []⟩ := by
  have hcu : cleanUrl ('/' :: '/' :: (h ++ p)) = '/' :: '/' :: (h ++ p) := by
    unfold cleanUrl
    rw [List.dropWhile_cons_of_neg (by decide)]
    rw [List.filter_eq_self.mpr ?_]
    intro c hc
    rcases List.mem_cons.mp hc with rfl | hc2
    · decide
    · rcases List.mem_cons.mp hc2 with rfl | hc3
      · decide
      · rcases List.mem_append.mp hc3 with h4 | h4
        · simp [hhclean c h4]
        · simp [hpclean c h4]
  have hss : usSchemeSplit ('/' :: '/' :: (h ++ p)) = ([], '/' :: '/' :: (h ++ p)) := by
    simp only [usSchemeSplit]
    rw [if_neg ?_]
    intro hcond
    exact absurd hcond.2.2.1 (by decide)
  have htk : (h ++ p).takeWhile (fun c => c ≠ '/' ∧ c ≠ '?' ∧ c ≠ '#') = h ∧
      (h ++ p).dropWhile (fun c => c ≠ '/' ∧ c ≠ '?' ∧ c ≠ '#') = p := by
    have hall : ∀ c ∈ h, (fun c => decide (c ≠ '/' ∧ c ≠ '?' ∧ c ≠ '#')) c = true := by
      intro c hc
      simp only [decide_eq_true_eq]
      exact hhb c hc
    rcases hpsh with rfl | ⟨t, rfl⟩
    · rw [List.append_nil]
      exact ⟨List.takeWhile_eq_self_iff.mpr hall, List.dropWhile_eq_nil_iff.mpr hall⟩
    · constructor
      · rw [List.takeWhile_append_of_pos hall, List.takeWhile_cons_of_neg (by decide),
          List.append_nil]
      · rw [List.dropWhile_append_of_pos hall, List.dropWhile_cons_of_neg (by decide)]
  have hns : usNetlocSplit ('/' :: '/' :: (h ++ p)) = (h, p) := by
    rw [usNetlocSplit_slash]
    rw [htk.1, htk.2]
  have hnet : usNetloc ('/' :: '/' :: (h ++ p)) = h := by
    unfold usNetloc
    rw [hcu, hss, hns]
  rw [urlsplitE_check, hnet]
  rw [if_neg (by
    intro hcond
    rcases hcond with ⟨hb, _⟩ | ⟨hb, _⟩
    · exact hbr1 hb
    · exact hbr2 hb)]
  congr 1
  unfold usOkSplit usNetloc
  rw [hcu, hss, hns]
  dsimp only
  rw [if_neg hpf]
  dsimp only
  rw [if_neg hpq]

/-- The host component `normalize_url` re-emits: the `hostname` with one
leading `www.` removed. -/
def normHostOf (sp : PySplitUrl) : List Char :=
  if (hostOfL sp.netloc).take 4 = chs "www." then (hostOfL sp.netloc).drop 4
  else hostOfL sp.netloc

/-- C5 counterexample: `normalize_url` strips only one `www.` per pass, so
on `https://www.www.example.com/a` the output changes again when fed back
through `normalize_url`. -/
theorem normalize_url_not_idempotent :
    normalize_url "https://www.www.example.com/a" = Except.ok "//www.example.com/a" ∧
    normalize_url "//www.example.com/a" = Except.ok "//example.com/a" := ⟨rfl, rfl⟩

/-- C5 (amended): `normalize_url` is idempotent on every URL whose parse
yields a nonempty stripped host that does not start with another `www.`,
contains no separator or percent characters, whose query has no surviving
parameters, and whose slash-stripped path is empty or absolute without
`;`, `?`, `#`: the first output re-parses to the same components and is a
fixed point.  A host of the form `www.www.…` refutes the unconditional
claim. -/
theorem normalize_url_idem_cond (u : String) (sp : PySplitUrl)
    (hsp : urlparseE u.data = Except.ok sp)
    (hne : normHostOf sp ≠ [])
    (hwww : (normHostOf sp).take 4 ≠ chs "www.")
    (hchars : ∀ c ∈ normHostOf sp, c ≠ '@' ∧ c ≠ '[' ∧ c ≠ ']' ∧ c ≠ ':' ∧ c ≠ '%' ∧
      c ≠ '/' ∧ c ≠ '?' ∧ c ≠ '#')
    (hhclean : ∀ c ∈ normHostOf sp, unsafeUrlByte c = false)
    (hq0 : urlencodeL (qsFilter (groupQs (qslL sp.query))) = [])
    (hpsh : rstripSlash sp.path = [] ∨ ∃ t, rstripSlash sp.path = '/' :: t)
    (hpq : '?' ∉ rstripSlash sp.path) (hpf : '#' ∉ rstripSlash sp.path)
    (hps : ';' ∉ rstripSlash sp.path)
    (hpclean : ∀ c ∈ rstripSlash sp.path, unsafeUrlByte c = false) :
    ∃ r : String, normalize_url u = Except.ok r ∧ normalize_url r = Except.ok r := by
  have hev := normalizeUrlL_eval hsp
  rw [hq0] at hev
  rw [show (if (hostOfL sp.netloc).take 4 = chs "www." then (hostOfL sp.netloc).drop 4
      else hostOfL sp.netloc) = normHostOf sp from rfl] at hev
  rw [unparse_shape _ _ hne hpsh] at hev
  refine ⟨String.mk ('/' :: '/' :: (normHostOf sp ++ rstripSlash sp.path)), ?_, ?_⟩
  · unfold normalize_url
    rw [hev]
    rfl
  · unfold normalize_url
    rw [show (String.mk ('/' :: '/' :: (normHostOf sp ++ rstripSlash sp.path))).data =
      '/' :: '/' :: (normHostOf sp ++ rstripSlash sp.path) from rfl]
    have hre := urlsplitE_reparse hne
      (fun c hc => ⟨(hchars c hc).2.2.2.2.2.1, (hchars c hc).2.2.2.2.2.2.1,
        (hchars c hc).2.2.2.2.2.2.2⟩)
      (fun hm => (hchars _ hm).2.1 rfl) (fun hm => (hchars _ hm).2.2.1 rfl)
      hhclean hpsh hpq hpf hpclean
    have hpar : urlparseE ('/' :: '/' :: (normHostOf sp ++ rstripSlash sp.path)) =
        Except.ok ⟨[], normHostOf sp, rstripSlash sp.path, [], []⟩ := by
      rw [urlparseE_eval hre, if_neg ?_]
      intro hcond
      exact hps hcond.2
    have hmp : '%' ∉ hostOfL sp.netloc := by
      intro hm
      by_cases hw4 : (hostOfL sp.netloc).take 4 = chs "www."
      · rw [← List.take_append_drop 4 (hostOfL sp.netloc)] at hm
        rcases List.mem_append.mp hm with h2 | h2
        · rw [hw4] at h2
          revert h2
          decide
        · have : '%' ∈ normHostOf sp := by
            unfold normHostOf
            rw [if_pos hw4]
            exact h2
          exact (hchars _ this).2.2.2.2.1 rfl
      · have : '%' ∈ normHostOf sp := by
          unfold normHostOf
          rw [if_neg hw4]
          exact hm
        exact (hchars _ this).2.2.2.2.1 rfl
    have hlow : lowerL (normHostOf sp) = normHostOf sp := by
      obtain ⟨x, y, hxy, hy⟩ := hostOfL_shape sp.netloc
      rcases hy with rfl | ⟨t, rfl⟩
      · have hh0 : hostOfL sp.netloc = lowerL x := by rw [hxy, List.append_nil]
        unfold normHostOf
        by_cases hw4 : (hostOfL sp.netloc).take 4 = chs "www."
        · rw [if_pos hw4, hh0, lowerL_drop, lowerL_idem_list]
        · rw [if_neg hw4, hh0, lowerL_idem_list]
      · exact absurd (by
          rw [hxy]
          exact List.mem_append_right _ (List.mem_cons_self _ _)) hmp
    have hhost2 : hostOfL (normHostOf sp) = normHostOf sp :=
      hostOfL_self (fun hm => (hchars _ hm).1 rfl) (fun hm => (hchars _ hm).2.1 rfl)
        (fun hm => (hchars _ hm).2.2.2.1 rfl) (fun hm => (hchars _ hm).2.2.2.2.1 rfl) hlow
    have hev2 := normalizeUrlL_eval hpar
    dsimp only at hev2
    rw [hhost2, if_neg hwww,
      show urlencodeL (qsFilter (groupQs (qslL []))) = [] from rfl,
      rstripSlash_idem] at hev2
    rw [unparse_shape _ _ hne hpsh] at hev2
    rw [hev2]
    rfl

theorem normalize_url_idem_cond_witness :
    ∃ r : String, normalize_url "https://www.example.com/article/?utm_source=twitter" =
      Except.ok r ∧ normalize_url r = Except.ok r :=
  normalize_url_idem_cond "https://www.example.com/article/?utm_source=twitter"
    ⟨chs "https", chs "www.example.com", chs "/article/", chs "utm_source=twitter", []⟩
    rfl (by decide) (by decide) (by decide) (by decide) rfl
    (Or.inr ⟨chs "article", rfl⟩) (by decide) (by decide) (by decide) (by decide)
